import Mathlib

/-!
Verification development for the hisat3n-table repository (Rust sources under
src/).  The Rust code is shallowly embedded: ASCII bytes are modelled as
`Char`, byte strings as `List Char`, machine integers as `Nat`/`Int` with
explicit range checks where the Rust code could overflow or panic, and every
Rust panic (index out of bounds, integer underflow, unwrap of None/Err,
backwards slice, assertion failure, explicit panic calls) is modelled by an
`Option`/`none` result.  Field and function names follow the Rust source.
-/

namespace Hisat3n

/-! ### Basic helpers shared by the embeddings -/

/-- Decidable equality for doubly nested Option values; the chained
standard instance fails to synthesize for deep component types in this
Mathlib snapshot, so it is provided directly. -/
instance optOptDecEq {α : Type} [DecidableEq α] : DecidableEq (Option (Option α)) :=
  fun a b => match a, b with
  | none, none => isTrue rfl
  | none, some _ => isFalse (by simp)
  | some _, none => isFalse (by simp)
  | some x, some y =>
    match decEq x y with
    | isTrue hxy => isTrue (by rw [hxy])
    | isFalse hxy => isFalse (by simpa using hxy)

/-- Decimal value of an ASCII digit byte (only used on digit characters). -/
def digitVal (c : Char) : Nat := c.toNat - 48

/-- Accumulator loop of decimal parsing over a digit list; fails on the first
non-digit byte. -/
def parseDigitsGo : List Char → Nat → Option Nat
  | [], acc => some acc
  | c :: rest, acc =>
    if c.isDigit then parseDigitsGo rest (acc * 10 + digitVal c) else none

/-- Parse a non-empty all-digit byte list as a natural number (no sign).
Models the digit-only integer parsers (atoi_simd style). -/
def parseNatDigits (s : List Char) : Option Nat :=
  match s with
  | [] => none
  | _ :: _ => parseDigitsGo s 0

/-- Model of Rust str::parse::<usize>: optional leading plus sign, then a
non-empty digit run; fails on anything else or on 64-bit overflow. -/
def parseUsize (s : List Char) : Option Nat :=
  let body := match s with
    | '+' :: rest => parseNatDigits rest
    | _ => parseNatDigits s
  body.bind (fun n => if n < 2 ^ 64 then some n else none)

/-- Model of Rust str::parse for signed integers: optional sign, non-empty
digit run, checked against the given two-sided bound (2^31 for i32, 2^63 for
isize). -/
def parseSigned (bound : Nat) (s : List Char) : Option Int :=
  let body : Option Int := match s with
    | '+' :: rest => (parseNatDigits rest).map Int.ofNat
    | '-' :: rest => (parseNatDigits rest).map (fun n => -(Int.ofNat n))
    | _ => (parseNatDigits s).map Int.ofNat
  body.bind (fun i => if -(Int.ofNat bound) ≤ i ∧ i < Int.ofNat bound then some i else none)

/-- Rust parse::<i32> model. -/
def parseI32 (s : List Char) : Option Int := parseSigned (2 ^ 31) s

/-- Rust parse::<isize> model (64-bit target). -/
def parseIsize (s : List Char) : Option Int := parseSigned (2 ^ 63) s

/-- Split a byte list at tab bytes, mirroring Rust AsciiStr::split('\t'):
an empty input yields one empty field, and consecutive/trailing separators
yield empty fields. -/
def splitTab : List Char → List (List Char)
  | [] => [[]]
  | c :: rest =>
    if c = '\t' then [] :: splitTab rest
    else
      match splitTab rest with
      | f :: fs => (c :: f) :: fs
      | [] => [[c]]

/-- Contiguous sublist of length `len` starting at `a`, mirroring a Rust
slice expression s[a..a+len] whose bounds have already been checked. -/
def sliceList (s : List Char) (a len : Nat) : List Char :=
  (s.drop a).take len

/-- Insert into a list at an index, mirroring Vec::insert; Rust panics when
the index exceeds the length, modelled by none. -/
def listInsertAt {α : Type} (l : List α) (i : Nat) (x : α) : Option (List α) :=
  if i ≤ l.length then some (l.take i ++ x :: l.drop i) else none

/-- Remove the element at an index, mirroring Vec::remove on an index that
has already been bounds-checked by the caller's loop. -/
def listRemoveAt {α : Type} (l : List α) (i : Nat) : List α :=
  l.take i ++ l.drop (i + 1)

/-! ### Configuration (main.rs, struct Arguments)

Only the fields the embedded code reads are modelled; paths and thread
counts are I/O configuration outside the embedding. -/

structure Args where
  unique_only : Bool
  multiple_only : Bool
  cg_only : Bool
  /-- Layout from main.rs: ((convert_from, complement), (convert_to, convert_to_complement)). -/
  base_change : (Char × Char) × (Char × Char)
  align_block_size : Nat
  ref_block_size : Nat
deriving Repr, DecidableEq

/-! ### utils.rs -/

/-- BASE_CHARS from utils.rs. -/
def BASE_CHARS : List Char := ['A', 'T', 'C', 'G']

/-- asc2dnacomp from utils.rs: DNA complement table over IUPAC codes; the
default arm yields the NUL byte. -/
def asc2dnacomp (ch : Char) : Char :=
  if ch = '-' then '-'
  else if ch = 'A' then 'T'
  else if ch = 'B' then 'V'
  else if ch = 'C' then 'G'
  else if ch = 'D' then 'H'
  else if ch = 'G' then 'C'
  else if ch = 'H' then 'D'
  else if ch = 'K' then 'M'
  else if ch = 'M' then 'K'
  else if ch = 'N' then 'N'
  else if ch = 'R' then 'Y'
  else if ch = 'S' then 'S'
  else if ch = 'T' then 'A'
  else if ch = 'U' then 'A'
  else if ch = 'V' then 'B'
  else if ch = 'W' then 'W'
  else if ch = 'Y' then 'R'
  else Char.ofNat 0

/-- Scanning loop of CigarIterator::next (utils.rs): the walk over
s[current_index] for current_index = ci, ci+1, ... is rendered as a
structural walk over the suffix s.drop ci, with ci carried along for the
length-slice bounds.  A non-digit non-alphabetic byte in the length field
returns None, as does running off the end or a failed length parse.  This
function cannot panic. -/
def cigarIterGo (s : List Char) (start : Nat) : List Char → Nat → Option (Nat × Char × Nat)
  | [], _ => none
  | c :: rest, ci =>
    if c.isAlpha then
      match parseNatDigits (sliceList s start (ci - start)) with
      | some n => if n < 2 ^ 64 then some (n, c, ci + 1) else none
      | none => none
    else if c.isDigit then cigarIterGo s start rest (ci + 1)
    else none

/-- CigarIterator::next from utils.rs, over the byte list and the current
start offset.  On success it returns (length, operator, new start offset);
self.start is only advanced on success, so a none result repeats forever. -/
def CigarIterator.next (s : List Char) (start : Nat) : Option (Nat × Char × Nat) :=
  if start ≥ s.length then none
  else cigarIterGo s start (s.drop start) start

/-! ### alignment.rs: data model -/

/-- PosQuality from alignment.rs: one per-read-base observation. -/
structure PosQuality where
  read_pos : Int
  ref_pos : Int
  qual : Char
  converted : Bool
  remove : Bool
deriving Repr, DecidableEq

/-- PosQuality::new: remove starts true, qual is the Default (NUL) byte,
converted the Default false. -/
def PosQuality.new (pos : Int) : PosQuality :=
  { read_pos := pos, ref_pos := pos, qual := Char.ofNat 0,
    converted := false, remove := true }

/-- PosQuality::set_qual. -/
def PosQuality.set_qual (b : PosQuality) (qual : Char) (converted : Bool) : PosQuality :=
  { b with qual := qual, converted := converted, remove := false }

/-- Alignment from alignment.rs.  Borrowed AsciiStr fields are byte lists. -/
structure Alignment where
  dna : List Char
  location : Int
  mate_location : Int
  flag : Int
  mapped : Bool
  strand : Char
  sequence : List Char
  quality : List Char
  unique : Bool
  map_q : List Char
  nh : Int
  bases : List PosQuality
  cigar : List Char
  md : List Char
  read_name_id : Nat
  sequence_covered_length : Nat
  overlap : Bool
  paired : Bool
deriving Repr, DecidableEq

/-- Alignment::new from alignment.rs: the field defaults.  Default::default
for AsciiChar is the NUL byte and for AsciiStr the empty string. -/
def Alignment.new : Alignment :=
  { dna := [], location := -1, mate_location := -1, flag := -1, mapped := false,
    md := [], sequence := [], quality := [], unique := false, map_q := [],
    nh := -1, bases := [], read_name_id := 0, sequence_covered_length := 0,
    overlap := false, paired := false, strand := Char.ofNat 0, cigar := [] }

/-- Alignment::hash_name: r = r * 63689 + byte over the name's bytes; the
release-build usize arithmetic wraps modulo 2^64. -/
def Alignment.hash_name (name : List Char) : Nat :=
  name.foldl (fun r c => (r * 63689 + c.toNat) % 2 ^ 64) 0

/-! ### alignment.rs: Alignment::cigar_get_next_segment

The Rust scanning loop indexes cigar_string[current_index] without a bounds
check (out-of-range panics), and on the operator byte slices
cigar_string[start .. current_index - start]: a backwards range (end below
start) panics, and the parse of the slice is unwrapped (panics unless the
slice is a plain digit run).  All three panic paths are modelled by none of
the outer Option; the inner Option is the function's boolean result (none
for false, i.e. the iteration is finished). -/

/-- Scanning loop of Alignment::cigar_get_next_segment from current_index,
rendered as a structural walk over the suffix cigar.drop ci with ci
carried along; running off the end is the unchecked index panic. -/
def cigarSegGo (cigar : List Char) (start : Nat) : List Char → Nat → Option (Nat × Char × Nat)
  | [], _ => none
  | c :: rest, ci =>
    if c.isAlpha then
      if ci - start < start then none
      else
        match parseUsize (sliceList cigar start (ci - start - start)) with
        | some n => some (n, c, ci + 1)
        | none => none
    else cigarSegGo cigar start rest (ci + 1)

/-- Alignment::cigar_get_next_segment. -/
def Alignment.cigar_get_next_segment (cigar : List Char) (start : Nat) :
    Option (Option (Nat × Char × Nat)) :=
  if start = cigar.length then some none
  else
    match cigarSegGo cigar start (cigar.drop start) start with
    | some r => some (some r)
    | none => none

/-! ### alignment.rs: Alignment::md_get_next_segment

Mirrors the Rust loop exactly: deletion tracks whether the segment being
built started with a caret; an alphabetic byte either forms a one-byte
mismatch segment, extends a deletion, or ends a numeric segment; any other
byte (the Rust else arm treats every non-alphabetic non-caret byte as a
number byte) starts or extends a segment or ends a mismatch/deletion
segment.  Reaching the end of the string returns the pending segment when
non-empty.  No panic path exists (seg.last is unwrapped only under the
non-empty guard).  A none result models returning false. -/

def mdSegGo : List Char → Nat → List Char → Bool → Option (List Char × Nat)
  | [], ci, seg, _ => if seg = [] then none else some (seg, ci + 1)
  | c :: rest, ci, seg, deletion =>
    if hseg : seg = [] then
      if c = '0' then mdSegGo rest (ci + 1) seg deletion
      else if c.isAlpha then some ([c], ci + 1)
      else if c = '^' then mdSegGo rest (ci + 1) ['^'] true
      else mdSegGo rest (ci + 1) [c] deletion
    else
      if c.isAlpha then
        if deletion then mdSegGo rest (ci + 1) (seg ++ [c]) deletion
        else some (seg, ci)
      else if c = '^' then some (seg, ci)
      else
        -- the Rust else arm: every other byte is treated as a number byte
        if deletion ∨ (seg.getLast hseg).isAlpha then some (seg, ci)
        else mdSegGo rest (ci + 1) (seg ++ [c]) deletion

/-- Alignment::md_get_next_segment: none models returning false (no further
segment); some (seg, start2) models returning true with the segment and the
advanced start offset. -/
def Alignment.md_get_next_segment (md : List Char) (start : Nat) :
    Option (List Char × Nat) :=
  if start ≥ md.length then none
  else mdSegGo (md.drop start) start [] false

/-! ### alignment.rs: Alignment::adjust_pos -/

/-- One Rust loop of the form `for i in lo..hi { self.bases[i] = ... }`:
if some index in the range is out of bounds the Rust code panics (none);
otherwise every base whose index lies in [lo, hi) is updated. -/
def forRangeUpdate (bases : List PosQuality) (lo hi : Nat)
    (f : PosQuality → PosQuality) : Option (List PosQuality) :=
  if lo < hi ∧ bases.length < hi then none
  else some ((List.range bases.length).zipWith
    (fun i b => if lo ≤ i ∧ i < hi then f b else b) bases)

/-- Segment loop of Alignment::adjust_pos.  State: cigar_start, read_pos,
return_pos, sequence_covered_length and the bases vector.  Returns the
final (return_pos, sequence_covered_length, bases).  The explicit fuel is
an iteration allowance: each fetched segment strictly advances
cigar_start within [0, cigar.length], so the wrapper's allowance of
cigar.length + 2 iterations can never be exhausted. -/
def adjustGo (cigar : List Char) (seq_length : Nat) :
    Nat → Nat → Nat → Nat → Nat → List PosQuality → Option (Nat × Nat × List PosQuality)
  | 0, _, _, _, _, _ => none
  | fuel + 1, cigar_start, read_pos, return_pos, covered, bases =>
    match Alignment.cigar_get_next_segment cigar cigar_start with
    | none => none
    | some none => some (return_pos, covered, bases)
    | some (some (cigar_len, cigar_symbol, start2)) =>
      let covered2 := covered + cigar_len
      if cigar_symbol = 'S' then
        if read_pos = 0 then
          match forRangeUpdate bases cigar_len seq_length
              (fun b => { b with ref_pos := b.ref_pos - Int.ofNat cigar_len }) with
          | none => none
          | some bases2 =>
            adjustGo cigar seq_length fuel start2 (read_pos + cigar_len) cigar_len covered2 bases2
        else
          adjustGo cigar seq_length fuel start2 (read_pos + cigar_len) return_pos covered2 bases
      else if cigar_symbol = 'N' then
        match forRangeUpdate bases read_pos seq_length
            (fun b => { b with ref_pos := b.ref_pos + Int.ofNat cigar_len }) with
        | none => none
        | some bases2 => adjustGo cigar seq_length fuel start2 read_pos return_pos covered2 bases2
      else if cigar_symbol = 'M' then
        match forRangeUpdate bases read_pos (read_pos + cigar_len)
            (fun b => { b with remove := false }) with
        | none => none
        | some bases2 =>
          adjustGo cigar seq_length fuel start2 (read_pos + cigar_len) return_pos covered2 bases2
      else if cigar_symbol = 'I' then
        match forRangeUpdate bases (read_pos + cigar_len) seq_length
            (fun b => { b with ref_pos := b.ref_pos - Int.ofNat cigar_len }) with
        | none => none
        | some bases2 =>
          adjustGo cigar seq_length fuel start2 (read_pos + cigar_len) return_pos covered2 bases2
      else if cigar_symbol = 'D' then
        match forRangeUpdate bases read_pos seq_length
            (fun b => { b with ref_pos := b.ref_pos + Int.ofNat cigar_len }) with
        | none => none
        | some bases2 => adjustGo cigar seq_length fuel start2 read_pos return_pos covered2 bases2
      else
        adjustGo cigar seq_length fuel start2 read_pos return_pos covered2 bases

/-- Alignment::adjust_pos: runs the CIGAR walk over self, producing the MD
start offset (the Rust return value, a usize cast to isize on return) and
the updated alignment (bases and sequence_covered_length, which the walk
resets to 0 before accumulating). -/
def Alignment.adjust_pos (a : Alignment) : Option (Nat × Alignment) :=
  match adjustGo a.cigar a.sequence.length (a.cigar.length + 2) 0 0 0 0 a.bases with
  | none => none
  | some (return_pos, covered, bases2) =>
    some (return_pos, { a with bases := bases2, sequence_covered_length := covered })

/-! ### alignment.rs: the MD walk inside Alignment::append_base -/

/-- Rust loop `while self.bases[pos].remove { pos += 1; }` rendered as a
structural walk over the suffix bases.drop pos: indexing past the end is
a panic (none); otherwise the first offset at or after pos whose base is
not marked remove. -/
def mdSkipRemoveGo : List PosQuality → Nat → Option Nat
  | [], _ => none
  | b :: rest, pos => if b.remove then mdSkipRemoveGo rest (pos + 1) else some pos

/-- The skip-removed loop at offset pos over the full bases vector. -/
def mdSkipRemove (bases : List PosQuality) (pos : Nat) : Option Nat :=
  mdSkipRemoveGo (bases.drop pos) pos

/-- Candidacy test of the numeric MD arm, with Rust short-circuit
evaluation: sequence[pos] is only indexed (possible panic) when the strand
byte matches one of the two guards. -/
def candidacyNum (args : Args) (strand : Char) (sequence : List Char) (pos : Nat) :
    Option Bool :=
  if strand = '+' then (sequence[pos]?).map (fun c => c = args.base_change.1.1)
  else if strand = '-' then (sequence[pos]?).map (fun c => c = args.base_change.1.2)
  else some false

/-- Candidacy test of the mismatch MD arm (ch is the reference base from
the MD segment), with Rust short-circuit evaluation. -/
def candidacyMM (args : Args) (strand : Char) (ch : Char) (sequence : List Char) (pos : Nat) :
    Option Bool :=
  if strand = '+' ∧ ch = args.base_change.1.1 then
    (sequence[pos]?).map (fun c => c = args.base_change.2.1)
  else if strand = '-' ∧ ch = args.base_change.1.2 then
    (sequence[pos]?).map (fun c => c = args.base_change.2.2)
  else some false

/-- Body of the numeric MD arm, iterated len times: skip removed bases,
test candidacy, set the quality (unconverted observation) or mark the base
removed, and advance pos. -/
def mdNum (args : Args) (strand : Char) (sequence quality : List Char)
    (bases : List PosQuality) (pos : Nat) : Nat → Option (List PosQuality × Nat)
  | 0 => some (bases, pos)
  | n + 1 =>
    match mdSkipRemove bases pos with
    | none => none
    | some pos2 =>
      match candidacyNum args strand sequence pos2 with
      | none => none
      | some true =>
        match quality[pos2]? with
        | none => none
        | some q =>
          match bases[pos2]? with
          | none => none
          | some b => mdNum args strand sequence quality
              (bases.set pos2 (b.set_qual q false)) (pos2 + 1) n
      | some false =>
        match bases[pos2]? with
        | none => none
        | some b => mdNum args strand sequence quality
            (bases.set pos2 { b with remove := true }) (pos2 + 1) n

/-- Segment loop of the MD walk in Alignment::append_base.  The fuel is
an iteration allowance: every fetched segment strictly advances md_start
within [0, md.length + 1], so the wrapper allowance of md.length + 2
iterations can never be exhausted. -/
def mdGo (args : Args) (strand : Char) (sequence quality md : List Char) :
    Nat → Nat → Nat → List PosQuality → Option (List PosQuality)
  | 0, _, _, _ => none
  | fuel + 1, md_start, pos, bases =>
    match Alignment.md_get_next_segment md md_start with
    | none => some bases
    | some (seg, start2) =>
      match seg with
      | [] => none  -- seg.first().unwrap() would panic (unreachable: segments are non-empty)
      | ch :: _ =>
        if ch.isDigit then
          match parseUsize seg with
          | none => none  -- seg.as_str().parse().unwrap() panics on a non-numeric byte
          | some len =>
            match mdNum args strand sequence quality bases pos len with
            | none => none
            | some (bases2, pos2) =>
              mdGo args strand sequence quality md fuel start2 pos2 bases2
        else if ch.isAlpha then
          match mdSkipRemove bases pos with
          | none => none
          | some pos2 =>
            match candidacyMM args strand ch sequence pos2 with
            | none => none
            | some true =>
              match quality[pos2]? with
              | none => none
              | some q =>
                match bases[pos2]? with
                | none => none
                | some b =>
                  mdGo args strand sequence quality md fuel start2 (pos2 + 1)
                    (bases.set pos2 (b.set_qual q true))
            | some false =>
              match bases[pos2]? with
              | none => none
              | some b =>
                mdGo args strand sequence quality md fuel start2 (pos2 + 1)
                  (bases.set pos2 { b with remove := true })
        else
          -- the Rust else arm is empty: deletion segments produce nothing
          mdGo args strand sequence quality md fuel start2 pos bases

/-- Alignment::append_base from alignment.rs: early-out on unmapped records
or an (always zero at this point) sequence_covered_length above 500000;
otherwise push one PosQuality per sequence byte, run the CIGAR walk
(adjust_pos) and then the MD walk starting at the returned read offset. -/
def Alignment.append_base (a : Alignment) (args : Args) : Option Alignment :=
  if ¬ a.mapped ∨ a.sequence_covered_length > 500000 then some a
  else
    let a1 := { a with bases :=
      a.bases ++ (List.range a.sequence.length).map (fun i => PosQuality.new (Int.ofNat i)) }
    match a1.adjust_pos with
    | none => none
    | some (pos, a2) =>
      match mdGo args a2.strand a2.sequence a2.quality a2.md (a2.md.length + 2) 0 pos a2.bases with
      | none => none
      | some bases2 => some { a2 with bases := bases2 }

/-! ### alignment.rs: TryFrom for Alignment -/

/-- Rust str::starts_with over byte lists. -/
def listStartsWith (p s : List Char) : Bool := p.isPrefixOf s

/-- The optional-tag loop of Alignment::try_from (fields beyond index 10):
MD sets md to the bytes after "MD:Z:", NM parses an i32 after "NM:i:" (a
parse failure makes try_from fail), YZ takes the field's last byte as the
strand.  A tag field shorter than 5 bytes makes the Rust slice s[5..]
panic. -/
def tagsLoop (a : Alignment) : List (List Char) → Option Alignment
  | [] => some a
  | s :: rest =>
    if listStartsWith ['M', 'D'] s then
      if s.length < 5 then none
      else tagsLoop { a with md := s.drop 5 } rest
    else if listStartsWith ['N', 'M'] s then
      if s.length < 5 then none
      else
        match parseI32 (s.drop 5) with
        | none => none
        | some v => tagsLoop { a with nh := v } rest
    else if listStartsWith ['Y', 'Z'] s then
      match s.getLast? with
      | none => none
      | some c => tagsLoop { a with strand := c } rest
    else tagsLoop a rest

/-- Alignment::try_from(&AsciiStr) from alignment.rs: split the line at
tabs, consume the eleven fixed fields, scan the optional tags, apply the
uniqueness filters (which return early without running append_base), then
run append_base.  none models both Err(()) and a panic inside the body. -/
def Alignment.try_from (args : Args) (s : List Char) : Option Alignment :=
  match splitTab s with
  | f0 :: f1 :: f2 :: f3 :: f4 :: f5 :: _f6 :: f7 :: _f8 :: f9 :: f10 :: rest =>
    match parseI32 f1, parseIsize f3, parseIsize f7 with
    | some flag, some location, some mate_location =>
      let a := { Alignment.new with
        read_name_id := Alignment.hash_name f0,
        flag := flag, dna := f2, location := location,
        map_q := f4, unique := f4 ≠ ['1'],
        cigar := f5, mate_location := mate_location,
        sequence := f9, quality := f10 }
      match tagsLoop a rest with
      | none => none
      | some a2 =>
        if (args.unique_only ∧ ¬ a2.unique) ∨ (args.multiple_only ∧ a2.unique) then some a2
        else a2.append_base args
    | _, _, _ => none
  | _ => none

/-! ### position.rs: Position and the per-fragment dedup contract -/

/-- UniqueID from position.rs; the Cell of the removed flag is interior
mutability only and is modelled as a plain Bool. -/
structure UniqueID where
  read_name_id : Nat
  converted : Bool
  quality : Char
  removed : Bool
deriving Repr, DecidableEq

/-- UniqueID::new. -/
def UniqueID.new (read_name_id : Nat) (converted : Bool) (quality : Char) : UniqueID :=
  { read_name_id := read_name_id, converted := converted, quality := quality,
    removed := false }

/-- Position from position.rs. -/
structure Position where
  dna : List Char
  location : Int
  strand : Option Char
  converted_qualities : List Char
  unconverted_qualities : List Char
  unique_ids : List UniqueID
deriving Repr, DecidableEq

/-- Position::new. -/
def Position.new : Position :=
  { dna := [], location := -1, strand := none, converted_qualities := [],
    unconverted_qualities := [], unique_ids := [] }

/-- Position::empty. -/
def Position.empty (p : Position) : Bool :=
  p.converted_qualities.isEmpty ∧ p.unconverted_qualities.isEmpty

/-- Position::search_read_name_id: the recursive binary search over
unique_ids with an inclusive end bound.  Two Rust panic paths are modelled
by none: indexing unique_ids[middle] out of bounds, and the usize
underflow of middle - 1 when middle is 0 (in a release build the wrapped
value then indexes out of bounds; either way the call never returns).
The fuel is a recursion allowance: each recursive call shrinks the
inclusive interval strictly, so the wrapper allowance e + 2 can never be
exhausted. -/
def searchGo (ids : List UniqueID) (read_name_id : Nat) : Nat → Nat → Nat → Option Nat
  | 0, _, _ => none
  | fuel + 1, start, e =>
    if ids.isEmpty then some 0
    else if start ≤ e then
      match ids[(start + e) / 2]? with
      | none => none
      | some u =>
        if u.read_name_id = read_name_id then some ((start + e) / 2)
        else if u.read_name_id > read_name_id then
          if (start + e) / 2 = 0 then none
          else searchGo ids read_name_id fuel start ((start + e) / 2 - 1)
        else searchGo ids read_name_id fuel ((start + e) / 2 + 1) e
    else some start

/-- The binary search entry point (self.search_read_name_id). -/
def Position.search_read_name_id (ids : List UniqueID) (read_name_id : Nat)
    (start e : Nat) : Option Nat :=
  searchGo ids read_name_id (e + 2) start e

/-- First retraction scan of Position::append_read_name_id: iterate over
converted_qualities with its own length, removing the first byte equal to
qual.  This loop cannot go out of bounds. -/
def removeFirstEq (l : List Char) (q : Char) : List Char :=
  match l with
  | [] => []
  | c :: rest => if c = q then rest else c :: removeFirstEq rest q

/-- Second retraction scan of Position::append_read_name_id, as written
in the source: the loop bound is the length of the *converted* list while
the indexed list is the *unconverted* one.  The index loop for
i = 0..bound over l is rendered structurally: the first pattern is the
loop ending with no match (list unchanged), the second is the index
running past the indexed list inside the bound (a Rust panic), the third
removes the first matching byte within the bound. -/
def removeFirstEqUpTo (q : Char) : Nat → List Char → Option (List Char)
  | 0, l => some l
  | _ + 1, [] => none
  | bound + 1, c :: rest =>
    if c = q then some rest
    else (removeFirstEqUpTo q bound rest).map (fun l2 => c :: l2)

/-- Position::append_read_name_id: returns the Rust bool (true when the
caller should append the quality byte) together with the updated position;
none models the panic paths (binary-search underflow/out-of-bounds and the
mismatched retraction-scan bound). -/
def Position.append_read_name_id (p : Position) (base : PosQuality) (a : Alignment) :
    Option (Position × Bool) :=
  let id_count := p.unique_ids.length
  match p.unique_ids.getLast? with
  | none =>
    some ({ p with unique_ids :=
      p.unique_ids ++ [UniqueID.new a.read_name_id base.converted base.qual] }, true)
  | some lastu =>
    if a.read_name_id > lastu.read_name_id then
      some ({ p with unique_ids :=
        p.unique_ids ++ [UniqueID.new a.read_name_id base.converted base.qual] }, true)
    else
      match Position.search_read_name_id p.unique_ids a.read_name_id 0 id_count with
      | none => none
      | some index =>
        match p.unique_ids[index]? with
        | none => none
        | some u =>
          if u.read_name_id = a.read_name_id then
            if u.removed then some (p, false)
            else if u.converted ≠ base.converted then
              let ids1 := p.unique_ids.set index ({ u with removed := true })
              let p1 := { p with unique_ids := ids1 }
              if u.converted then
                let cq := removeFirstEq p1.converted_qualities base.qual
                some ({ p1 with converted_qualities := cq }, false)
              else
                match removeFirstEqUpTo base.qual p1.converted_qualities.length
                    p1.unconverted_qualities with
                | none => none
                | some l => some ({ p1 with unconverted_qualities := l }, false)
            else some (p, false)
          else
            match listInsertAt p.unique_ids index
                (UniqueID.new a.read_name_id base.converted base.qual) with
            | none => none
            | some ids => some ({ p with unique_ids := ids }, true)

/-- Position::append_base from position.rs: append the quality byte to the
matching list exactly when append_read_name_id accepted the vote. -/
def Position.append_base (p : Position) (input : PosQuality) (a : Alignment) :
    Option Position :=
  match Position.append_read_name_id p input a with
  | none => none
  | some (p1, true) =>
    if input.converted then
      some { p1 with converted_qualities := p1.converted_qualities ++ [input.qual] }
    else
      some { p1 with unconverted_qualities := p1.unconverted_qualities ++ [input.qual] }
  | some (p1, false) => some p1

/-- Fold a list of (observation, alignment) operations through
Position::append_base; none as soon as one step panics.  Verification
harness over the source function, used to state run-level invariants. -/
def runOps (p : Position) : List (PosQuality × Alignment) → Option Position
  | [] => some p
  | (b, a) :: rest =>
    match Position.append_base p b a with
    | none => none
    | some p2 => runOps p2 rest

/-- The quality-byte append performed by Position::append_base when
append_read_name_id accepted the vote (the tail of append_base after the
call), factored out so run-level lemmas can name the intermediate state. -/
def applyQual (p1 : Position) (accepted : Bool) (b : PosQuality) : Position :=
  if accepted then
    (if b.converted then
      { p1 with converted_qualities := p1.converted_qualities ++ [b.qual] }
    else
      { p1 with unconverted_qualities := p1.unconverted_qualities ++ [b.qual] })
  else p1

/-- Like runOps but also counts the steps at which append_read_name_id
accepted a vote (returned true) carrying the given fragment id: the number
of quality bytes the run appended on behalf of that fragment. -/
def runCount (p : Position) (id : Nat) : List (PosQuality × Alignment) → Option (Position × Nat)
  | [] => some (p, 0)
  | (b, a) :: rest =>
    match Position.append_read_name_id p b a with
    | none => none
    | some (p1, accepted) =>
      match runCount (applyQual p1 accepted b) id rest with
      | none => none
      | some (pf, n) =>
        some (pf, n + (if accepted ∧ a.read_name_id = id then 1 else 0))

/-! ### position.rs: PositionIter

PositionIter's fields are passed as explicit arguments (dna, location, seq,
last_base, last_pos mirror the Rust struct).  The Rust next() loop either
drops one reference byte per iteration or returns, so it is structural
recursion on seq.  The outer Option models the two panic paths (the
explicit panic on an at-sign byte and the unwrap of last_pos in the
CG branch); the inner Option is the iterator protocol (none = exhausted). -/

/-- State of PositionIter between next() calls. -/
structure PositionIterState where
  dna : List Char
  location : Int
  seq : List Char
  last_base : Option Char
  last_pos : Option Position
deriving Repr, DecidableEq

/-- PositionIter::new: the passed-in 0-based location becomes 1-based. -/
def PositionIterState.new (dna : List Char) (location : Int) (seq : List Char) :
    PositionIterState :=
  { dna := dna, location := location + 1, seq := seq, last_base := none,
    last_pos := none }

/-- PositionIter::next. -/
def posNext (args : Args) (dna : List Char) (location : Int) :
    List Char → Option Char → Option Position →
    Option (Option (Position × PositionIterState))
  | [], _, last_pos =>
    match last_pos with
    | some q =>
      some (some (q, { dna := dna, location := location, seq := [], last_base := none, last_pos := none }))
    | none => some none
  | c :: rest, last_base, last_pos =>
    if c = '\r' ∨ c = '\n' ∨ c = ' ' then
      posNext args dna location rest last_base last_pos
    else if c = '@' then none
    else
      let ch := c.toUpper
      let p0 : Position := { Position.new with dna := dna, location := location }
      if args.cg_only then
        if last_base = some 'C' ∧ ch = 'G' then
          match last_pos with
          | none => none
          | some lp =>
            let lp2 := { lp with strand := some '+' }
            let p := { p0 with strand := some '-' }
            some (some (lp2, { dna := dna, location := location + 1, seq := rest, last_base := some ch, last_pos := some p }))
        else
          match last_pos with
          | none => posNext args dna (location + 1) rest (some ch) (some p0)
          | some q =>
            some (some (q, { dna := dna, location := location + 1, seq := rest, last_base := some ch, last_pos := some p0 }))
      else
        let p1 := if ch = args.base_change.1.1 then { p0 with strand := some '+' }
          else if ch = args.base_change.2.1 then { p0 with strand := some '-' }
          else p0
        match last_pos with
        | none => posNext args dna (location + 1) rest (some ch) (some p1)
        | some q =>
          some (some (q, { dna := dna, location := location + 1, seq := rest, last_base := some ch, last_pos := some p1 }))

/-- Measure for iterating posNext to exhaustion: remaining reference bytes
plus one for a buffered look-ahead position. -/
def posMeasure (seq : List Char) (lp : Option Position) : Nat :=
  seq.length + (if lp.isSome then 1 else 0)

/-- Every yielded position strictly decreases the iteration measure. -/
theorem posNext_decreases (args : Args) (dna : List Char) :
    ∀ seq location last_base last_pos p st2,
      posNext args dna location seq last_base last_pos = some (some (p, st2)) →
      posMeasure st2.seq st2.last_pos < posMeasure seq last_pos := by
  intro seq
  induction seq with
  | nil =>
    intro location last_base last_pos p st2 h
    unfold posNext at h
    cases last_pos with
    | some q =>
      simp only [Option.some.injEq, Prod.mk.injEq] at h
      obtain ⟨-, hst⟩ := h
      subst hst
      simp [posMeasure]
    | none => simp at h
  | cons c rest ih =>
    intro location last_base last_pos p st2 h
    unfold posNext at h
    simp only [] at h
    split at h
    · have := ih _ _ _ _ _ h
      simp only [posMeasure, List.length_cons] at *
      omega
    · split at h
      · cases h
      · split at h
        · split at h
          · cases last_pos with
            | none => simp at h
            | some lp =>
              simp only [Option.some.injEq, Prod.mk.injEq] at h
              obtain ⟨-, hst⟩ := h
              subst hst
              simp [posMeasure]
          · cases last_pos with
            | none =>
              have := ih _ _ _ _ _ h
              simp [posMeasure] at this ⊢
              omega
            | some q =>
              simp only [Option.some.injEq, Prod.mk.injEq] at h
              obtain ⟨-, hst⟩ := h
              subst hst
              simp [posMeasure]
        · cases last_pos with
          | none =>
            have := ih _ _ _ _ _ h
            simp [posMeasure] at this ⊢
            omega
          | some q =>
            simp only [Option.some.injEq, Prod.mk.injEq] at h
            obtain ⟨-, hst⟩ := h
            subst hst
            simp [posMeasure]

/-- Drain PositionIter with an explicit iteration allowance. -/
def posAllGo (args : Args) (dna : List Char) :
    Nat → Int → List Char → Option Char → Option Position → Option (List Position)
  | 0, _, _, _, _ => none
  | fuel + 1, location, seq, last_base, last_pos =>
    match posNext args dna location seq last_base last_pos with
    | none => none
    | some none => some []
    | some (some (p, st2)) =>
      (posAllGo args dna fuel st2.location st2.seq st2.last_base st2.last_pos).map
        (fun ps => p :: ps)

/-- Drain PositionIter: the list of all positions its next() yields (none
if any step panics).  Verification harness around the source iterator; by
posNext_decreases the allowance posMeasure + 1 can never be exhausted. -/
def posAll (args : Args) (dna : List Char) (location : Int) (seq : List Char)
    (last_base : Option Char) (last_pos : Option Position) : Option (List Position) :=
  posAllGo args dna (posMeasure seq last_pos + 1) location seq last_base last_pos

/-! ### main.rs: the base_change value parser -/

/-- The clap value parser for --base-change in main.rs: "X,Y" becomes
((from, complement(from)), (to, complement(to))) after uppercasing, with
both letters required to be in BASE_CHARS. -/
def Arguments.base_change_parser (s : List Char) : Option ((Char × Char) × (Char × Char)) :=
  match s with
  | [c1, ',', c2] =>
    let from_base := c1.toUpper
    let from_comp := asc2dnacomp from_base
    let to_base := c2.toUpper
    let to_comp := asc2dnacomp to_base
    if from_base ∈ BASE_CHARS ∧ to_base ∈ BASE_CHARS then
      some ((from_base, from_comp), (to_base, to_comp))
    else none
  | _ => none

/-! ### task.rs: TaskIter

Files are modelled as lists of lines (AsciiStr::lines).  Pointer ranges
over the reference text are modelled by their chromosome-coordinate
image: the range of a reference line starting at location L with length n
is (L, L + n), and range.end updates replace the second component.  This
recoding is strictly monotone in the pointer, so every comparison and
merge the source performs is preserved.  Pointer ranges over a single
alignment line are modelled by the line's bytes.  Rust panics (asserts,
expect/unwrap, the explicit empty panic) are none. -/

/-- Rust char::is_ascii_whitespace. -/
def isAsciiWs (c : Char) : Bool :=
  c = ' ' ∨ c = '\t' ∨ c = '\n' ∨ c = '\r' ∨ c = Char.ofNat 12

/-- First token of str::split_ascii_whitespace. -/
def firstWhitespaceToken (s : List Char) : Option (List Char) :=
  let t := (s.dropWhile (fun c => isAsciiWs c)).takeWhile (fun c => ¬ isAsciiWs c)
  if t = [] then none else some t

/-- State cached between TaskIter::next calls for the current chromosome:
(name, remaining seq line iterator, peeked dna line, location of the first
base in the remaining text). -/
structure CurrentDna where
  name : List Char
  dna_lines : List (List Char)
  peeked_dna_line : Option (List Char)
  dna_location : Int
deriving Repr, DecidableEq

/-- TaskIter's persistent state (task.rs). -/
structure TaskIterState where
  align_lines : List (List Char)
  dnas : List (List Char × List (List Char))
  current_dna : Option CurrentDna
  peeked_align_line : Option (List Char)
deriving Repr, DecidableEq

/-- The loop-local variables of one TaskIter::next call. -/
structure LoopVars where
  align_t : Option (List Char)
  dna_t : Option (Int × Int)
  dna_l : Option Int
  align_count : Nat
  dna_count : Nat
deriving Repr, DecidableEq

/-- The Task record as constructed at the end of TaskIter::next.  Note the
source wiring: AlignmentIter::new receives the *reference text* range
(dna_t) and PositionIter::new receives the *alignment line* range
(align_t); the fields keep that wiring. -/
structure Task where
  dna : List Char
  alignments_src : Int × Int
  positions_dna : List Char
  positions_loc : Int
  positions_src : List Char
deriving Repr, DecidableEq

/-- TaskIter::get_dna_location: field 2 (chromosome) and field 3
(position) of a tab-split alignment line; a star position yields None, an
unparsable position byte-run panics (outer none). -/
def TaskIter.get_dna_location (align_line : List Char) : Option (Option (List Char × Int)) :=
  let parts := splitTab align_line
  match parts[2]? with
  | none => some none
  | some chr =>
    match parts[3]? with
    | none => some none
    | some pos =>
      if pos = ['*'] then some none
      else
        match parseIsize pos with
        | none => none
        | some v => some (some (chr, v))

/-- TaskIter::get_dna_name: assert the line starts with a greater-than
byte (panic otherwise), then take the first whitespace-delimited token of
the rest (unwrap panics when there is none). -/
def TaskIter.get_dna_name (info_line : List Char) : Option (List Char) :=
  match info_line with
  | '>' :: rest =>
    match firstWhitespaceToken rest with
    | none => none
    | some t => some t
  | _ => none

/-- HashMap::get over the name-to-sequence-lines map. -/
def dnasGet (dnas : List (List Char × List (List Char))) (name : List Char) :
    Option (List (List Char)) :=
  (dnas.find? (fun e => e.1 = name)).map (fun e => e.2)

/-- HashMap::insert (later inserts overwrite earlier ones). -/
def dnasInsert (dnas : List (List Char × List (List Char))) (name : List Char)
    (text : List (List Char)) : List (List Char × List (List Char)) :=
  (dnas.filter (fun e => ¬ e.1 = name)) ++ [(name, text)]

/-- One-pass rendering of the TaskIter::new reference scan (task.rs lines
65-103).  The source's inner peek loop collects, after every info line,
the following lines while they are non-empty and do not start a new info
line; the accumulating state (current info name and collected lines)
makes the same decisions line by line.  An empty line ends the current
collection, and lines outside any collection are skipped.  The collected
pointer range starts at the info line's terminator byte, so when at least
one line is collected the resulting slice's line iterator yields one
empty line (the leading terminator) before the sequence lines; the flush
preserves that artifact. -/
def taskNewFlush (cur : Option (List Char × List (List Char)))
    (dnas : List (List Char × List (List Char))) : List (List Char × List (List Char)) :=
  match cur with
  | none => dnas
  | some (dna, seq) => dnasInsert dnas dna (if seq = [] then [] else [] :: seq)

/-- The line scan of TaskIter::new (see taskNewFlush). -/
def taskNewGo : List (List Char) → Option (List Char × List (List Char)) →
    List (List Char × List (List Char)) → Option (List (List Char × List (List Char)))
  | [], cur, dnas => some (taskNewFlush cur dnas)
  | line :: rest, cur, dnas =>
    match line with
    | '>' :: _ =>
      match TaskIter.get_dna_name line with
      | none => none
      | some dna => taskNewGo rest (some (dna, [])) (taskNewFlush cur dnas)
    | [] => taskNewGo rest none (taskNewFlush cur dnas)
    | _ =>
      match cur with
      | some (dna, seq) => taskNewGo rest (some (dna, seq ++ [line])) dnas
      | none => taskNewGo rest none dnas

/-- TaskIter::new over the two files' line lists. -/
def TaskIter.new (align_lines dna_file_lines : List (List Char)) :
    Option TaskIterState :=
  match taskNewGo dna_file_lines none [] with
  | none => none
  | some dnas =>
    some { align_lines := align_lines, dnas := dnas, current_dna := none,
           peeked_align_line := none }

/-- The local closure advance_dna_location_to_align_location of
TaskIter::next: consume reference lines until one covers align_location.
Returns ((dna_t piece, dna_l piece), remaining lines, location, count);
running out of lines is the expect panic (outer none). -/
def advanceDna (align_location : Int) : List (List Char) → Int → Nat →
    Option ((Option (Int × Int) × Option Int) × List (List Char) × Int × Nat)
  | dna_lines, dna_location, dna_count =>
    if dna_location < align_location then
      match dna_lines with
      | [] => none
      | dna_line :: rest =>
        let next_dna_location := dna_location + Int.ofNat dna_line.length
        if dna_location ≤ align_location ∧ align_location < next_dna_location then
          some ((some (dna_location, next_dna_location), some dna_location),
            rest, next_dna_location, dna_count + 1)
        else advanceDna align_location rest next_dna_location (dna_count + 1)
    else some ((none, none), dna_lines, dna_location, dna_count)

/-- Outcome of one iteration of the TaskIter::next loop. -/
inductive LoopOut where
  | cont (vars : LoopVars) (st : TaskIterState)
  | brk (vars : LoopVars) (st : TaskIterState)
  | retNone
deriving Repr, DecidableEq

/-- One iteration of the TaskIter::next loop body, transcribed arm by arm
from task.rs (lines 145-366).  none models a panic in the iteration
(asserts of sortedness, unwraps, the empty panic on a rewound peeked
line). -/
def taskLoopStep (args : Args) (vars : LoopVars) (st : TaskIterState) : Option LoopOut :=
  match st.peeked_align_line with
  | some peeked =>
    if h1 : ¬ vars.align_t = none then none
    else
      match TaskIter.get_dna_location peeked with
      | none => none
      | some none => some (LoopOut.cont vars { st with peeked_align_line := none })
      | some (some (align_dna, align_location)) =>
        match st.current_dna with
        | some cur =>
          if align_dna = cur.name then
            match cur.peeked_dna_line with
            | some dna_line =>
              let prev_dna_location := cur.dna_location - Int.ofNat dna_line.length
              if align_location < prev_dna_location then none
              else if prev_dna_location ≤ align_location ∧ align_location < cur.dna_location then
                some (LoopOut.cont
                  { vars with dna_l := some prev_dna_location, dna_t := some (prev_dna_location, cur.dna_location), align_t := some peeked }
                  { st with current_dna := some { cur with peeked_dna_line := none }, peeked_align_line := none })
              else
                some (LoopOut.cont vars
                  { st with current_dna := some { cur with peeked_dna_line := none } })
            | none =>
              match advanceDna align_location cur.dna_lines cur.dna_location vars.dna_count with
              | none => none
              | some ((dna_t2, dna_l2), lines2, loc2, cnt2) =>
                if dna_t2 = none then none
                else
                  some (LoopOut.cont
                    { vars with dna_t := dna_t2, dna_l := dna_l2, dna_count := cnt2, align_t := some peeked }
                    { st with current_dna := some { cur with dna_lines := lines2, dna_location := loc2 }, peeked_align_line := none })
          else
            some (LoopOut.cont vars { st with current_dna := none })
        | none =>
          match dnasGet st.dnas align_dna with
          | none =>
            some (LoopOut.cont vars { st with peeked_align_line := none })
          | some dna_text =>
            match advanceDna align_location dna_text 0 vars.dna_count with
            | none => none
            | some ((dna_t2, dna_l2), lines2, loc2, cnt2) =>
              if dna_t2 = none then none
              else
                some (LoopOut.cont
                  { vars with dna_t := dna_t2, dna_l := dna_l2, dna_count := cnt2, align_t := some peeked }
                  { st with current_dna := some { name := align_dna, dna_lines := lines2, peeked_dna_line := none, dna_location := loc2 }, peeked_align_line := none })
  | none =>
    let align_count := vars.align_count + 1
    match st.align_lines with
    | align_line :: rest =>
      let st1 : TaskIterState := { st with align_lines := rest }
      if align_line.head? = none ∨ align_line.head? = some '@' then
        some (LoopOut.cont { vars with align_count := align_count } st1)
      else
        match TaskIter.get_dna_location align_line with
        | none => none
        | some none => some (LoopOut.cont { vars with align_count := align_count } st1)
        | some (some (align_dna, align_location)) =>
          match st1.current_dna with
          | some cur =>
            if align_dna = cur.name then
              match cur.peeked_dna_line with
              | some dna_line =>
                let prev_dna_location := cur.dna_location - Int.ofNat dna_line.length
                if ¬ align_location < prev_dna_location then none
                else if prev_dna_location ≤ align_location ∧ align_location < cur.dna_location then
                  match vars.dna_t with
                  | some dt =>
                    some (LoopOut.cont { vars with align_count := align_count, dna_t := some (dt.1, cur.dna_location) } st1)
                  | none =>
                    some (LoopOut.cont { vars with align_count := align_count, dna_t := some (prev_dna_location, cur.dna_location), dna_l := some prev_dna_location } st1)
                else
                  some (LoopOut.cont { vars with align_count := align_count } { st1 with current_dna := some { cur with peeked_dna_line := none } })
              | none =>
                if ¬ align_location < cur.dna_location then none
                else if align_count ≥ args.align_block_size ∨ vars.dna_count ≥ args.ref_block_size then
                  some (LoopOut.brk { vars with align_count := align_count } { st1 with peeked_align_line := some align_line })
                else
                  match advanceDna align_location cur.dna_lines cur.dna_location vars.dna_count with
                  | none => none
                  | some ((last_dna_t, last_dna_l), lines2, loc2, cnt2) =>
                    let st2 : TaskIterState := { st1 with current_dna := some { cur with dna_lines := lines2, dna_location := loc2 } }
                    match vars.dna_t with
                    | some dt =>
                      match last_dna_t with
                      | none => none
                      | some ldt =>
                        some (LoopOut.cont { vars with align_count := align_count, dna_count := cnt2, dna_t := some (dt.1, ldt.2) } st2)
                    | none =>
                      some (LoopOut.cont { vars with align_count := align_count, dna_count := cnt2, dna_t := last_dna_t, dna_l := last_dna_l } st2)
            else
              some (LoopOut.brk { vars with align_count := align_count } { st1 with peeked_align_line := some align_line })
          | none =>
            if h2 : ¬ vars.align_t = none then none
            else some (LoopOut.cont { vars with align_count := align_count } { st1 with peeked_align_line := some align_line })
    | [] =>
      if vars.align_t = none then some LoopOut.retNone
      else some (LoopOut.brk { vars with align_count := align_count } st)

/-- The Task construction after the loop breaks (task.rs lines 369-379):
the three components and the cached chromosome are asserted Some. -/
def taskBuild (vars : LoopVars) (st : TaskIterState) : Option (Task × TaskIterState) :=
  match vars.align_t, vars.dna_t, vars.dna_l, st.current_dna with
  | some ta, some dt, some dl, some cur =>
    some ({ dna := cur.name, alignments_src := dt, positions_dna := cur.name, positions_loc := dl, positions_src := ta }, st)
  | _, _, _, _ => none

/-- Iterate the loop body with explicit fuel (each source iteration
consumes one fuel unit; callers supply enough for the concrete input). -/
def taskIterNext (args : Args) : Nat → LoopVars → TaskIterState →
    Option (Option (Task × TaskIterState))
  | 0, _, _ => none
  | fuel + 1, vars, st =>
    match taskLoopStep args vars st with
    | none => none
    | some (LoopOut.cont vars2 st2) => taskIterNext args fuel vars2 st2
    | some (LoopOut.brk vars2 st2) =>
      match taskBuild vars2 st2 with
      | none => none
      | some r => some (some r)
    | some LoopOut.retNone => some none

/-- TaskIter::next: run the loop from freshly initialized loop-local
variables. -/
def TaskIter.next (args : Args) (fuel : Nat) (st : TaskIterState) :
    Option (Option (Task × TaskIterState)) :=
  taskIterNext args fuel
    { align_t := none, dna_t := none, dna_l := none, align_count := 0, dna_count := 0 } st

/-! ### Shared concrete configuration for the theorems -/

/-- The default C-to-T conversion configuration (base_change as the
main.rs value parser produces for "C,T"). -/
def argsCT : Args :=
  { unique_only := false, multiple_only := false, cg_only := false,
    base_change := (('C', 'G'), ('T', 'A')),
    align_block_size := 20000, ref_block_size := 20000 }

/-- A PosQuality observation carrying a quality byte and a converted flag,
as the worker hands it to Position::append_base (remove is false for every
folded observation). -/
def obs (q : Char) (conv : Bool) : PosQuality :=
  { read_pos := 0, ref_pos := 0, qual := q, converted := conv, remove := false }

/-- An alignment record whose only relevant field is the fragment id. -/
def alignWithId (id : Nat) : Alignment :=
  { Alignment.new with read_name_id := id }

/-! ### C1 -/

/-- C1: the claim states that for every line Alignment::try_from decodes
successfully, the record's mapped field equals (flag & 4) == 0 and paired
equals (flag & 1) != 0.  The code never derives either field from the
parsed flag: Alignment::new initializes both to false and try_from never
assigns them.  On the concrete line below the flag parses as 1, for which
the claim requires mapped = true ((1 & 4) == 0) and paired = true
((1 & 1) != 0), but the decoded record carries mapped = false and
paired = false. -/
theorem c1_mapped_paired_not_derived :
    (Alignment.try_from argsCT
        ("r1\t1\tchr1\t1\t42\t4M\t*\t0\t0\tACGT\tFFFF").data).map
      (fun a => (a.flag, a.mapped, a.paired)) = some (1, false, false)
    ∧ (1 &&& 4 = 0) ∧ ¬ (1 &&& 1 = 0) := by
  refine ⟨by decide, by decide, by decide⟩

/-! ### C2 -/

/-- C2: the claim states that in default (non-CG-only) mode a seeded
position's strand is '+' exactly when the reference base equals the
configured from-base and '-' exactly when it equals the from-base's
complement.  For the C-to-T configuration (from-base C, complement G,
to-base T) the code disagrees on the minus strand: PositionIter::next
compares against base_change.1.0, the *to-base*.  Concretely, a reference
consisting of the single base G (the complement of C, which the claim says
must get '-') is seeded with no strand, while a reference T (not the
complement of C) is seeded with '-'. -/
theorem c2_minus_strand_uses_to_base :
    Arguments.base_change_parser ("C,T").data = some (('C', 'G'), ('T', 'A'))
    ∧ asc2dnacomp 'C' = 'G'
    ∧ (posAll argsCT [] 1 ['G'] none none).map (List.map (fun p => (p.location, p.strand)))
        = some [(1, none)]
    ∧ (posAll argsCT [] 1 ['T'] none none).map (List.map (fun p => (p.location, p.strand)))
        = some [(1, some '-')] := by
  refine ⟨by decide, by decide, by decide, by decide⟩

/-! ### C3 -/

/-- C3: the claim states that a conflicting vote retracts the earlier one
and removes one byte from the opposite-sense list by a best-effort scan
that never raises an error or panics.  The code's second retraction scan
iterates with the length of the converted list while indexing the
unconverted list; when the converted list is longer, the scan indexes out
of bounds and the program panics.  The run below makes fragment 1 vote
unconverted (quality q), fragments 2 and 3 vote converted (x, y), and then
fragment 1 vote converted with quality r: the retraction scan runs i = 0, 1
over the one-element unconverted list and panics at i = 1. -/
theorem c3_retraction_scan_panics :
    runOps Position.new
      [(obs 'q' false, alignWithId 1), (obs 'x' true, alignWithId 2),
       (obs 'y' true, alignWithId 3), (obs 'r' true, alignWithId 1)] = none := by
  decide

/-! ### C7 counterexample -/

/-- A mapped record whose CIGAR-implied coverage is 500001 bases (a single
soft-clip segment, so the walk touches no base and cannot itself panic),
with a one-byte sequence. -/
def a7input : Alignment :=
  { Alignment.new with mapped := true, sequence := ['A'], quality := ['F'], cigar := ("500001S").data }

/-- C7 as stated is false on the code: a mapped alignment whose CIGAR
covers 500001 bases (one soft-clip segment, so the walk touches no base
and cannot itself panic) still gets its observation array built — the
array has one entry per sequence byte — because the ceiling compares
sequence_covered_length before adjust_pos has computed it.  The decoder
even records the coverage 500001 afterwards. -/
theorem c7_counterexample_ceiling_not_applied :
    (Alignment.append_base a7input argsCT).map
      (fun a => (a.bases.length, a.sequence_covered_length)) = some (1, 500001) := by
  decide

/-! ### C8 -/

/-- A mapped record whose CIGAR is a 2-base soft clip followed by a
3-base match. -/
def a8input : Alignment :=
  { Alignment.new with mapped := true, sequence := ("ACGTA").data, quality := ("FFFFF").data, cigar := ("2S3M").data, md := ['3'] }

/-- C8: the claim states that for every read whose CIGAR begins with a
soft-clip of length c the walk returns c and shifts later bases left by c.
The code's segment parser slices cigar[start .. current_index - start];
for every segment after the first this range is malformed (backwards
bounds) or wrong, so a CIGAR of 2S3M panics while parsing the 3M segment
and the walk never returns: append_base on such a read panics instead of
producing the claimed shift. -/
theorem c8_soft_clip_walk_panics_on_second_segment :
    Alignment.append_base a8input argsCT = none := by
  decide

/-! ### C5 counterexample -/

/-- Reference file for the chunk-planner counterexample. -/
def dnaLines5 : List (List Char) := [(">chr1").data, ("ACGTACGTACGT").data]

/-- Second alignment line (the candidate) of the counterexample: location
5, inside both the first alignment's span [3, 3+4) and the accumulated
reference range (0, 12). -/
def alignLine5b : List Char := ("r2\t0\tchr1\t5\t42\t4M\t*\t0\t0\tACGT\tFFFF").data

/-- Alignment file for the chunk-planner counterexample. -/
def alignLines5 : List (List Char) :=
  [("r1\t0\tchr1\t3\t42\t4M\t*\t0\t0\tACGT\tFFFF").data, alignLine5b]

/-- Configuration with align_block_size 2 for the counterexample. -/
def args5 : Args := { argsCT with align_block_size := 2 }

/-- C5 as stated is false on the code: with align_block_size = 2 the
planner closes the first chunk at the second alignment purely because the
size limit is reached, although that candidate's position 5 lies inside
the chunk's accumulated coordinate range — inside the consumed reference
range [0, 12) (= the returned task's alignments_src, and 5 < 12 is what
the sortedness assertion had just checked) and inside the first
alignment's span [3, 3 + 4).  The candidate is left as the peeked first
line of the next chunk. -/
def c5observed : Option (Option (List Char × (Int × Int) × Int × Option (List Char))) :=
  ((TaskIter.new alignLines5 dnaLines5).bind (TaskIter.next args5 10)).map
    (fun r => r.map (fun x =>
      (x.1.dna, x.1.alignments_src, x.1.positions_loc, x.2.peeked_align_line)))

theorem c5_counterexample_soft_close_inside_range :
    c5observed = some (some (("chr1").data, (0, 12), 0, some alignLine5b))
    ∧ TaskIter.get_dna_location alignLine5b = some (some (("chr1").data, 5))
    ∧ ((0 : Int) ≤ 5 ∧ (5 : Int) < 12) ∧ ((3 : Int) ≤ 5 ∧ (5 : Int) < 3 + 4) := by
  refine ⟨by decide, by decide, by decide, by decide⟩


/-! ### C6 -/

/-- ASCII digit bytes are not alphabetic. -/
theorem digit_not_alpha (c : Char) (h : c.isDigit = true) : c.isAlpha = false := by
  simp only [Char.isDigit, Char.isAlpha, Char.isUpper, Char.isLower, Bool.and_eq_true,
    decide_eq_true_eq, Bool.or_eq_false_iff, Bool.and_eq_false_iff, decide_eq_false_iff_not,
    UInt32.le_def, BitVec.le_def] at *
  have h48 : (UInt32.toBitVec 48).toNat = 48 := rfl
  have h57 : (UInt32.toBitVec 57).toNat = 57 := rfl
  have h65 : (UInt32.toBitVec 65).toNat = 65 := rfl
  have h90 : (UInt32.toBitVec 90).toNat = 90 := rfl
  have h97 : (UInt32.toBitVec 97).toNat = 97 := rfl
  have h122 : (UInt32.toBitVec 122).toNat = 122 := rfl
  omega

/-- The CigarIterator scanning loop returns None once every byte up to a
non-digit non-alphabetic byte at offset i is a digit: the scan walks the
digit run and stops at the bad byte. -/
theorem cigarIterGo_none_of_bad (s : List Char) (start i : Nat)
    (hlt : i < s.length)
    (hnd : (s[i]).isDigit = false) (hna : (s[i]).isAlpha = false) :
    ∀ k ci, i - ci = k → ci ≤ i →
      (∀ j (hj : j < s.length), ci ≤ j → j < i → (s[j]).isDigit = true) →
      cigarIterGo s start (s.drop ci) ci = none := by
  intro k
  induction k with
  | zero =>
    intro ci hk hci _hdig
    have hcie : ci = i := by omega
    subst hcie
    rw [List.drop_eq_getElem_cons hlt]
    simp [cigarIterGo, hna, hnd]
  | succ k ih =>
    intro ci hk hci hdig
    have hcilt : ci < i := by omega
    have hcil : ci < s.length := by omega
    have hdigci : (s[ci]).isDigit = true := hdig ci hcil (Nat.le_refl ci) hcilt
    have halci : (s[ci]).isAlpha = false := digit_not_alpha _ hdigci
    rw [List.drop_eq_getElem_cons hcil]
    simp only [cigarIterGo, halci, hdigci, Bool.false_eq_true, if_false, if_true]
    exact ih (ci + 1) (by omega) (by omega)
      (fun j hj h1 h2 => hdig j hj (by omega) h2)

/-- C6: for every CIGAR byte string whose length field contains, at offset
i, a byte that is neither an ASCII digit nor alphabetic (everything from
the current start offset up to it being digits), CigarIterator::next
returns None — it terminates with no further (length, operator) pair and
cannot panic, and since a None result leaves self.start unchanged every
subsequent call returns None as well. -/
theorem c6_cigar_iterator_stops_on_bad_byte (s : List Char) (start i : Nat)
    (hsi : start ≤ i) (hlt : i < s.length)
    (hdig : ∀ j (hj : j < s.length), start ≤ j → j < i → (s[j]).isDigit = true)
    (hnd : (s[i]).isDigit = false) (hna : (s[i]).isAlpha = false) :
    CigarIterator.next s start = none := by
  unfold CigarIterator.next
  rw [if_neg (by omega)]
  exact cigarIterGo_none_of_bad s start i hlt hnd hna (i - start) start rfl hsi
    (fun j hj h1 h2 => hdig j hj h1 h2)

/-- Witness for C6 at the concrete CIGAR 12%4M with start offset 0: the
percent byte at offset 2 is neither digit nor alphabetic, the bytes before
it are digits, and the iterator yields nothing. -/
theorem c6_witness :
    CigarIterator.next ("12%4M").data 0 = none :=
  c6_cigar_iterator_stops_on_bad_byte ("12%4M").data 0 2 (by decide) (by decide)
    (by decide) (by decide) (by decide)

/-! ### C7 amended: the walks preserve the observation count -/

/-- A successful range update leaves the bases count unchanged. -/
theorem forRangeUpdate_length {bases : List PosQuality} {lo hi : Nat}
    {f : PosQuality → PosQuality} {b2 : List PosQuality}
    (h : forRangeUpdate bases lo hi f = some b2) : b2.length = bases.length := by
  unfold forRangeUpdate at h
  split at h
  · cases h
  · simp only [Option.some.injEq] at h
    subst h
    simp [List.length_zipWith]

/-- The CIGAR walk loop never adds or drops observation slots. -/
theorem adjustGo_length (cigar : List Char) (seq_length : Nat) :
    ∀ fuel cs rp ret cov bases r c b2,
      adjustGo cigar seq_length fuel cs rp ret cov bases = some (r, c, b2) →
      b2.length = bases.length := by
  intro fuel
  induction fuel with
  | zero =>
    intro cs rp ret cov bases r c b2 h
    cases h
  | succ fuel ih =>
    intro cs rp ret cov bases r c b2 h
    unfold adjustGo at h
    split at h
    · cases h
    · simp only [Option.some.injEq, Prod.mk.injEq] at h
      obtain ⟨-, -, rfl⟩ := h
      rfl
    · simp only [] at h
      split at h
      · split at h
        · split at h
          · cases h
          · next hfr =>
            exact (ih _ _ _ _ _ _ _ _ h).trans (forRangeUpdate_length hfr)
        · exact ih _ _ _ _ _ _ _ _ h
      · split at h
        · split at h
          · cases h
          · next hfr =>
            exact (ih _ _ _ _ _ _ _ _ h).trans (forRangeUpdate_length hfr)
        · split at h
          · split at h
            · cases h
            · next hfr =>
              exact (ih _ _ _ _ _ _ _ _ h).trans (forRangeUpdate_length hfr)
          · split at h
            · split at h
              · cases h
              · next hfr =>
                exact (ih _ _ _ _ _ _ _ _ h).trans (forRangeUpdate_length hfr)
            · split at h
              · split at h
                · cases h
                · next hfr =>
                  exact (ih _ _ _ _ _ _ _ _ h).trans (forRangeUpdate_length hfr)
              · exact ih _ _ _ _ _ _ _ _ h

/-- The numeric MD arm never adds or drops observation slots. -/
theorem mdNum_length (args : Args) (strand : Char) (sequence quality : List Char) :
    ∀ n bases pos b2 p2,
      mdNum args strand sequence quality bases pos n = some (b2, p2) →
      b2.length = bases.length := by
  intro n
  induction n with
  | zero =>
    intro bases pos b2 p2 h
    simp only [mdNum, Option.some.injEq, Prod.mk.injEq] at h
    obtain ⟨rfl, -⟩ := h
    rfl
  | succ n ih =>
    intro bases pos b2 p2 h
    unfold mdNum at h
    split at h
    · cases h
    · split at h
      · cases h
      · split at h
        · cases h
        · split at h
          · cases h
          · have := ih _ _ _ _ h
            simpa using this
      · split at h
        · cases h
        · have := ih _ _ _ _ h
          simpa using this

/-- The MD walk loop never adds or drops observation slots. -/
theorem mdGo_length (args : Args) (strand : Char) (sequence quality md : List Char) :
    ∀ fuel md_start pos bases b2,
      mdGo args strand sequence quality md fuel md_start pos bases = some b2 →
      b2.length = bases.length := by
  intro fuel
  induction fuel with
  | zero =>
    intro md_start pos bases b2 h
    cases h
  | succ fuel ih =>
    intro md_start pos bases b2 h
    unfold mdGo at h
    split at h
    · simp only [Option.some.injEq] at h
      subst h
      rfl
    · split at h
      · cases h
      · split at h
        · split at h
          · cases h
          · split at h
            · cases h
            · next hnum =>
              exact (ih _ _ _ _ h).trans (mdNum_length args strand sequence quality _ _ _ _ _ hnum)
        · split at h
          · split at h
            · cases h
            · split at h
              · cases h
              · split at h
                · cases h
                · split at h
                  · cases h
                  · have := ih _ _ _ _ h
                    simpa using this
              · split at h
                · cases h
                · have := ih _ _ _ _ h
                  simpa using this
          · exact ih _ _ _ _ h

/-- Projection facts of a completed CIGAR walk: adjust_pos only replaces
the bases (same count) and sequence_covered_length. -/
theorem adjust_pos_facts {a : Alignment} {r : Nat} {a2 : Alignment}
    (h : a.adjust_pos = some (r, a2)) :
    a2.bases.length = a.bases.length ∧ a2.sequence = a.sequence ∧ a2.strand = a.strand
      ∧ a2.quality = a.quality ∧ a2.md = a.md := by
  unfold Alignment.adjust_pos at h
  match hadj : adjustGo a.cigar a.sequence.length (a.cigar.length + 2) 0 0 0 0 a.bases with
  | none => rw [hadj] at h; cases h
  | some (rp, cov, b2) =>
    rw [hadj] at h
    simp only [Option.some.injEq, Prod.mk.injEq] at h
    obtain ⟨-, h2⟩ := h
    subst h2
    refine ⟨?_, rfl, rfl, rfl, rfl⟩
    simpa using adjustGo_length _ _ _ _ _ _ _ _ _ _ _ hadj

/-- C7 amended: because append_base tests sequence_covered_length before
adjust_pos computes it, the 500,000-base ceiling never fires: for every
mapped record entering with the constructor's zero coverage, whenever
append_base completes it has built exactly one observation slot per
sequence byte, regardless of the CIGAR-implied coverage. -/
theorem c7_ceiling_vacuous_construction_proceeds (args : Args) (a b : Alignment)
    (hm : a.mapped = true) (hc : a.sequence_covered_length = 0)
    (hres : Alignment.append_base a args = some b) :
    b.bases.length = a.bases.length + a.sequence.length := by
  unfold Alignment.append_base at hres
  rw [if_neg (by simp [hm, hc])] at hres
  simp only [] at hres
  revert hres
  match hadj : Alignment.adjust_pos
      { a with bases :=
          a.bases ++ (List.range a.sequence.length).map (fun i => PosQuality.new (Int.ofNat i)) } with
  | none => intro hres; cases hres
  | some (pos, a2) =>
    intro hres
    simp only [] at hres
    cases hmd : mdGo args a2.strand a2.sequence a2.quality a2.md (a2.md.length + 2) 0 pos a2.bases with
    | none => rw [hmd] at hres; cases hres
    | some bases2 =>
      rw [hmd] at hres
      simp only [Option.some.injEq] at hres
      subst hres
      have hf := adjust_pos_facts hadj
      have hlen := mdGo_length args a2.strand a2.sequence a2.quality a2.md _ _ _ _ _ hmd
      simp only [List.length_append, List.length_map, List.length_range] at hf
      simpa using hlen.trans hf.1

/-- Witness for C7 amended at the 500001-base-coverage record: append_base
completes and the observation count equals the sequence length. -/
theorem c7_ceiling_vacuous_witness :
    (Alignment.append_base a7input argsCT).map (fun b => b.bases.length)
      = some (a7input.bases.length + a7input.sequence.length) := by
  match hres : Alignment.append_base a7input argsCT with
  | none => exact absurd hres (by decide)
  | some b =>
    show some b.bases.length = some (a7input.bases.length + a7input.sequence.length)
    exact congrArg some
      (c7_ceiling_vacuous_construction_proceeds argsCT a7input b (by decide) (by decide) hres)

/-! ### C5 amended -/

/-- C5 amended: whenever TaskIter::next reads a same-chromosome candidate
alignment (no peeked reference line pending), the sortedness assertion
guarantees the candidate's position is below the scanned reference end,
and if the chunk has reached align_block_size alignment lines or
ref_block_size reference positions the iteration closes the chunk
immediately — the candidate (which lies inside the accumulated range) is
stored as the next chunk's peeked line.  Overlap never overrides the size
limits. -/
theorem c5_soft_close_on_size_alone (args : Args) (align_line : List Char)
    (rest : List (List Char)) (dnas : List (List Char × List (List Char)))
    (name : List Char) (dl : List (List Char)) (dloc loc : Int)
    (align_t : Option (List Char)) (dna_t : Option (Int × Int)) (dna_l : Option Int)
    (ac dc : Nat)
    (hhead : ¬ (align_line.head? = none ∨ align_line.head? = some '@'))
    (hloc : TaskIter.get_dna_location align_line = some (some (name, loc)))
    (hsorted : loc < dloc)
    (hsize : ac + 1 ≥ args.align_block_size ∨ dc ≥ args.ref_block_size) :
    taskLoopStep args
      { align_t := align_t, dna_t := dna_t, dna_l := dna_l, align_count := ac, dna_count := dc }
      { align_lines := align_line :: rest, dnas := dnas, current_dna := some { name := name, dna_lines := dl, peeked_dna_line := none, dna_location := dloc }, peeked_align_line := none }
      = some (LoopOut.brk
        { align_t := align_t, dna_t := dna_t, dna_l := dna_l, align_count := ac + 1, dna_count := dc }
        { align_lines := rest, dnas := dnas, current_dna := some { name := name, dna_lines := dl, peeked_dna_line := none, dna_location := dloc }, peeked_align_line := some align_line }) := by
  unfold taskLoopStep
  simp only []
  rw [if_neg hhead, hloc]
  simp only []
  simp only [if_true]
  rw [if_neg (not_not_intro hsorted), if_pos hsize]

/-- Witness for C5 amended at the concrete counterexample input: the
candidate at position 5 (inside the scanned reference range ending at 12)
triggers the soft close once two alignment lines have been counted. -/
theorem c5_soft_close_on_size_alone_witness :
    taskLoopStep args5
      { align_t := some (("r1\t0\tchr1\t3\t42\t4M\t*\t0\t0\tACGT\tFFFF").data), dna_t := some (0, 12), dna_l := some 0, align_count := 1, dna_count := 2 }
      { align_lines := [alignLine5b], dnas := [(("chr1").data, [[], ("ACGTACGTACGT").data])], current_dna := some { name := ("chr1").data, dna_lines := [], peeked_dna_line := none, dna_location := 12 }, peeked_align_line := none }
      = some (LoopOut.brk
        { align_t := some (("r1\t0\tchr1\t3\t42\t4M\t*\t0\t0\tACGT\tFFFF").data), dna_t := some (0, 12), dna_l := some 0, align_count := 2, dna_count := 2 }
        { align_lines := [], dnas := [(("chr1").data, [[], ("ACGTACGTACGT").data])], current_dna := some { name := ("chr1").data, dna_lines := [], peeked_dna_line := none, dna_location := 12 }, peeked_align_line := some alignLine5b }) :=
  c5_soft_close_on_size_alone args5 alignLine5b [] [(("chr1").data, [[], ("ACGTACGTACGT").data])]
    (("chr1").data) [] 12 5
    (some (("r1\t0\tchr1\t3\t42\t4M\t*\t0\t0\tACGT\tFFFF").data)) (some (0, 12)) (some 0) 1 2
    (by decide) (by decide) (by decide) (by decide)

/-! ### C10: PositionIter yields strictly consecutive coordinates -/

/-- The reference bytes PositionIter skips without consuming a coordinate. -/
def isRefSkip (c : Char) : Bool := c = '\r' ∨ c = '\n' ∨ c = ' '

/-- Number of coordinate-consuming (non-skipped) bytes of a reference
slice. -/
def nonSkippedCount (seq : List Char) : Nat :=
  (seq.filter (fun c => ¬ isRefSkip c)).length

/-- The consecutive 1-based coordinates start, start+1, ..., start+n-1. -/
def consecFrom (start : Int) : Nat → List Int
  | 0 => []
  | n + 1 => start :: consecFrom (start + 1) n

theorem dropWhile_head_false {α : Type} (p : α → Bool) :
    ∀ (l : List α) c rest, l.dropWhile p = c :: rest → p c = false := by
  intro l
  induction l with
  | nil => intro c rest h; cases h
  | cons a t ih =>
    intro c rest h
    rw [List.dropWhile_cons] at h
    split at h
    · exact ih c rest h
    · next hpa =>
      cases h
      exact Bool.of_not_eq_true hpa

theorem nonSkipped_dropWhile : ∀ seq : List Char,
    nonSkippedCount seq = nonSkippedCount (seq.dropWhile (fun c => isRefSkip c)) := by
  intro seq
  induction seq with
  | nil => rfl
  | cons c rest ih =>
    rw [List.dropWhile_cons]
    split
    · next hc =>
      unfold nonSkippedCount
      rw [List.filter_cons]
      simp only [hc]
      simpa [nonSkippedCount] using ih
    · rfl

/-- Location of the strand-assignment result in the default branch. -/
theorem strand_assign_location (args : Args) (p0 : Position) (ch : Char) :
    (if ch = args.base_change.1.1 then { p0 with strand := some '+' }
      else if ch = args.base_change.2.1 then { p0 with strand := some '-' }
      else p0).location = p0.location := by
  split
  · rfl
  · split
    · rfl
    · rfl

/-- One next() step of PositionIter holding a buffered position q: when
the remaining reference bytes are all skipped, the iterator consumes them
and (on the subsequent exhaustion branch) emits q with a cleared state;
otherwise it consumes the skips plus one coordinate byte c, emits q
(possibly with its strand set in CG mode) and buffers a position carrying
the current coordinate. -/
theorem posNext_with_last (args : Args) (dna : List Char) :
    ∀ seq location lb (q : Position), '@' ∉ seq →
      (seq.dropWhile (fun c => isRefSkip c) = [] →
        posNext args dna location seq lb (some q) =
          some (some (q, { dna := dna, location := location, seq := [], last_base := none, last_pos := none })))
      ∧ (∀ c rest, seq.dropWhile (fun c => isRefSkip c) = c :: rest →
        ∃ e p, posNext args dna location seq lb (some q) =
            some (some (e, { dna := dna, location := location + 1, seq := rest, last_base := some c.toUpper, last_pos := some p }))
          ∧ e.location = q.location ∧ p.location = location) := by
  intro seq
  induction seq with
  | nil =>
    intro location lb q _hat
    constructor
    · intro _
      rfl
    · intro c rest hdw
      cases hdw
  | cons a t ih =>
    intro location lb q hat
    have hat_t : '@' ∉ t := fun h => hat (List.mem_cons_of_mem _ h)
    have ha_ne : ¬ a = '@' := fun h => hat (h ▸ List.mem_cons_self _ _)
    by_cases hs : a = '\r' ∨ a = '\n' ∨ a = ' '
    · have hdw : (a :: t).dropWhile (fun c => isRefSkip c) = t.dropWhile (fun c => isRefSkip c) := by
        rw [List.dropWhile_cons, if_pos (by simp [isRefSkip]; tauto)]
      have hstep : posNext args dna location (a :: t) lb (some q) =
          posNext args dna location t lb (some q) := by
        conv_lhs => unfold posNext
        rw [if_pos hs]
      constructor
      · intro h
        rw [hdw] at h
        rw [hstep]
        exact (ih location lb q hat_t).1 h
      · intro c rest h
        rw [hdw] at h
        rw [hstep]
        exact (ih location lb q hat_t).2 c rest h
    · have hdw : (a :: t).dropWhile (fun c => isRefSkip c) = a :: t := by
        rw [List.dropWhile_cons, if_neg (by simp [isRefSkip]; tauto)]
      constructor
      · intro h
        rw [hdw] at h
        cases h
      · intro c rest h
        rw [hdw] at h
        injection h with h1 h2
        subst h1
        subst h2
        unfold posNext
        rw [if_neg hs, if_neg ha_ne]
        simp only []
        by_cases hcg : args.cg_only = true
        · rw [if_pos hcg]
          by_cases hcc : lb = some 'C' ∧ a.toUpper = 'G'
          · rw [if_pos hcc]
            exact ⟨{ q with strand := some '+' },
              { Position.new with dna := dna, location := location, strand := some '-' },
              rfl, rfl, rfl⟩
          · rw [if_neg hcc]
            exact ⟨q, { Position.new with dna := dna, location := location }, rfl, rfl, rfl⟩
        · rw [if_neg hcg]
          refine ⟨q, _, rfl, rfl, ?_⟩
          exact strand_assign_location args { Position.new with dna := dna, location := location } a.toUpper

/-- One next() step of PositionIter with no buffered position (the freshly
constructed state): all-skipped remaining bytes exhaust the iterator with
no yield; otherwise the step consumes through the first coordinate byte
and continues as the buffered-state iterator. -/
theorem posNext_no_last (args : Args) (dna : List Char) :
    ∀ seq location, '@' ∉ seq →
      (seq.dropWhile (fun c => isRefSkip c) = [] →
        posNext args dna location seq none none = some none)
      ∧ (∀ c rest, seq.dropWhile (fun c => isRefSkip c) = c :: rest →
        ∃ p, posNext args dna location seq none none =
            posNext args dna (location + 1) rest (some c.toUpper) (some p)
          ∧ p.location = location) := by
  intro seq
  induction seq with
  | nil =>
    intro location _hat
    refine ⟨fun _ => rfl, fun c rest h => ?_⟩
    cases h
  | cons a t ih =>
    intro location hat
    have hat_t : '@' ∉ t := fun h => hat (List.mem_cons_of_mem _ h)
    have ha_ne : ¬ a = '@' := fun h => hat (h ▸ List.mem_cons_self _ _)
    by_cases hs : a = '\r' ∨ a = '\n' ∨ a = ' '
    · have hdw : (a :: t).dropWhile (fun c => isRefSkip c) = t.dropWhile (fun c => isRefSkip c) := by
        rw [List.dropWhile_cons, if_pos (by simp [isRefSkip]; tauto)]
      have hstep : posNext args dna location (a :: t) none none =
          posNext args dna location t none none := by
        conv_lhs => unfold posNext
        rw [if_pos hs]
      constructor
      · intro h
        rw [hdw] at h
        rw [hstep]
        exact (ih location hat_t).1 h
      · intro c rest h
        rw [hdw] at h
        rw [hstep]
        exact (ih location hat_t).2 c rest h
    · have hdw : (a :: t).dropWhile (fun c => isRefSkip c) = a :: t := by
        rw [List.dropWhile_cons, if_neg (by simp [isRefSkip]; tauto)]
      constructor
      · intro h
        rw [hdw] at h
        cases h
      · intro c rest h
        rw [hdw] at h
        injection h with h1 h2
        subst h1
        subst h2
        by_cases hcg : args.cg_only = true
        · refine ⟨{ Position.new with dna := dna, location := location }, ?_, rfl⟩
          conv_lhs => unfold posNext
          rw [if_neg hs, if_neg ha_ne]
          simp only []
          rw [if_pos hcg, if_neg (by simp)]
        · refine ⟨if a.toUpper = args.base_change.1.1 then { ({ Position.new with dna := dna, location := location } : Position) with strand := some '+' } else if a.toUpper = args.base_change.2.1 then { ({ Position.new with dna := dna, location := location } : Position) with strand := some '-' } else { Position.new with dna := dna, location := location }, ?_, ?_⟩
          · conv_lhs => unfold posNext
            rw [if_neg hs, if_neg ha_ne]
            simp only []
            rw [if_neg hcg]
          · exact strand_assign_location args { Position.new with dna := dna, location := location } a.toUpper

/-- Draining PositionIter from a state with a buffered position q (one
coordinate behind the cursor) yields exactly the consecutive coordinates
location-1, location, ..., one per remaining non-skipped byte plus the
buffered one. -/
theorem posAllGo_with_last (args : Args) (dna : List Char) :
    ∀ fuel seq location lb (q : Position),
      posMeasure seq (some q) < fuel → '@' ∉ seq → q.location = location - 1 →
      ∃ ps, posAllGo args dna fuel location seq lb (some q) = some ps ∧
        ps.map (fun p => p.location) = consecFrom (location - 1) (nonSkippedCount seq + 1) := by
  intro fuel
  induction fuel with
  | zero =>
    intro seq location lb q hf _ _
    exact absurd hf (Nat.not_lt_zero _)
  | succ fuel ih =>
    intro seq location lb q hf hat hq
    cases hdw : seq.dropWhile (fun c => isRefSkip c) with
    | nil =>
      have h1 := (posNext_with_last args dna seq location lb q hat).1 hdw
      have hcount : nonSkippedCount seq = 0 := by
        rw [nonSkipped_dropWhile seq, hdw]
        rfl
      have hfuel1 : 1 ≤ fuel := by
        simp [posMeasure] at hf
        omega
      obtain ⟨f2, rfl⟩ : ∃ f2, fuel = f2 + 1 := ⟨fuel - 1, by omega⟩
      refine ⟨[q], ?_, ?_⟩
      · unfold posAllGo
        rw [h1]
        rfl
      · simp [hcount, consecFrom, hq]
    | cons c rest =>
      obtain ⟨e, p, h1, he, hp⟩ := (posNext_with_last args dna seq location lb q hat).2 c rest hdw
      have hsub : (c :: rest).Sublist seq := hdw ▸ List.dropWhile_sublist _
      have hat_rest : '@' ∉ rest := fun hm => hat (hsub.subset (List.mem_cons_of_mem _ hm))
      have hlen : rest.length + 1 ≤ seq.length := by
        have := hsub.length_le
        simpa using this
      have hm2 : posMeasure rest (some p) < fuel := by
        have hd := posNext_decreases args dna seq location lb (some q) e _ h1
        simp [posMeasure] at hd hf ⊢
        omega
      obtain ⟨ps2, h2, hmap⟩ := ih rest (location + 1) (some c.toUpper) p hm2 hat_rest (by omega)
      have hc := dropWhile_head_false _ seq c rest hdw
      have hcount : nonSkippedCount seq = nonSkippedCount rest + 1 := by
        rw [nonSkipped_dropWhile seq, hdw]
        unfold nonSkippedCount
        rw [List.filter_cons, hc]
        simp
      refine ⟨e :: ps2, ?_, ?_⟩
      · unfold posAllGo
        rw [h1]
        simp only []
        rw [h2]
        rfl
      · simp only [List.map_cons, hmap, he, hq, hcount]
        have : location + 1 - 1 = (location - 1) + 1 := by omega
        rw [this]
        rfl

/-- C10: draining PositionIter from PositionIter::new's state yields
positions with strictly consecutive 1-based coordinates starting at
location+1, exactly one per non-skipped (non CR/LF/space) reference byte —
carriage returns, line feeds and spaces consume no coordinate, and the one
buffered look-ahead position is still emitted after the reference text is
exhausted (the length of the yielded list equals the non-skipped byte
count).  Reference text is assumed free of at-sign bytes (the parser
treats one as an internal error). -/
theorem c10_position_iter_consecutive (args : Args) (dna seq : List Char) (location : Int)
    (hat : '@' ∉ seq) :
    (posAll args (PositionIterState.new dna location seq).dna
        (PositionIterState.new dna location seq).location
        (PositionIterState.new dna location seq).seq
        (PositionIterState.new dna location seq).last_base
        (PositionIterState.new dna location seq).last_pos).map
      (List.map (fun p => p.location))
      = some (consecFrom (location + 1) (nonSkippedCount seq)) := by
  show (posAll args dna (location + 1) seq none none).map (List.map (fun p => p.location))
      = some (consecFrom (location + 1) (nonSkippedCount seq))
  unfold posAll
  have hfe : posMeasure seq none + 1 = seq.length + 1 := by simp [posMeasure]
  rw [hfe]
  cases hdw : seq.dropWhile (fun c => isRefSkip c) with
  | nil =>
    have h1 := (posNext_no_last args dna seq (location + 1) hat).1 hdw
    have hcount : nonSkippedCount seq = 0 := by
      rw [nonSkipped_dropWhile seq, hdw]
      rfl
    unfold posAllGo
    rw [h1]
    simp [hcount, consecFrom]
  | cons c rest =>
    obtain ⟨p, hstep, hp⟩ := (posNext_no_last args dna seq (location + 1) hat).2 c rest hdw
    have hsub : (c :: rest).Sublist seq := hdw ▸ List.dropWhile_sublist _
    have hat_cr : '@' ∉ c :: rest := fun hm => hat (hsub.subset hm)
    have hat_rest : '@' ∉ rest := fun hm => hat_cr (List.mem_cons_of_mem _ hm)
    have hlen : rest.length + 1 ≤ seq.length := by simpa using hsub.length_le
    have hcnonskip := dropWhile_head_false _ seq c rest hdw
    have hcount : nonSkippedCount seq = nonSkippedCount rest + 1 := by
      rw [nonSkipped_dropWhile seq, hdw]
      unfold nonSkippedCount
      rw [List.filter_cons, hcnonskip]
      simp
    obtain ⟨L, hL⟩ : ∃ L, seq.length = L + 1 := ⟨seq.length - 1, by omega⟩
    rw [hL]
    unfold posAllGo
    rw [hstep]
    cases hdw2 : rest.dropWhile (fun c => isRefSkip c) with
    | nil =>
      have h2 := (posNext_with_last args dna rest (location + 1 + 1) (some c.toUpper) p hat_rest).1 hdw2
      rw [h2]
      have hcount2 : nonSkippedCount rest = 0 := by
        rw [nonSkipped_dropWhile rest, hdw2]
        rfl
      simp only []
      obtain ⟨L2, hL2⟩ : ∃ L2, L + 1 = L2 + 1 := ⟨L, rfl⟩
      unfold posAllGo
      rw [(posNext_no_last args dna [] (location + 1 + 1) (by simp)).1 rfl]
      simp [hcount, hcount2, consecFrom, hp]
    | cons c2 rest2 =>
      obtain ⟨e, p2, hstep2, he, hp2⟩ :=
        (posNext_with_last args dna rest (location + 1 + 1) (some c.toUpper) p hat_rest).2 c2 rest2 hdw2
      rw [hstep2]
      have hsub2 : (c2 :: rest2).Sublist rest := hdw2 ▸ List.dropWhile_sublist _
      have hat_rest2 : '@' ∉ rest2 :=
        fun hm => hat_rest (hsub2.subset (List.mem_cons_of_mem _ hm))
      have hlen2 : rest2.length + 1 ≤ rest.length := by simpa using hsub2.length_le
      have hc2nonskip := dropWhile_head_false _ rest c2 rest2 hdw2
      have hcount2 : nonSkippedCount rest = nonSkippedCount rest2 + 1 := by
        rw [nonSkipped_dropWhile rest, hdw2]
        unfold nonSkippedCount
        rw [List.filter_cons, hc2nonskip]
        simp
      have hm3 : posMeasure rest2 (some p2) < L + 1 := by
        simp [posMeasure]
        omega
      obtain ⟨ps2, h3, hmap⟩ := posAllGo_with_last args dna (L + 1) rest2 (location + 1 + 1 + 1)
        (some c2.toUpper) p2 hm3 hat_rest2 (by omega)
      have harith : location + 1 + 1 + 1 - 1 = location + 1 + 1 := by omega
      rw [harith] at hmap
      simp only []
      rw [h3]
      simp only [hcount, hcount2]
      show some (List.map (fun p => p.location) (e :: ps2))
        = some (consecFrom (location + 1) (nonSkippedCount rest2 + 1 + 1))
      simp only [List.map_cons, hmap, he, hp]
      rfl

/-- Witness for C10 at the concrete reference slice AC G\nT (four bases,
one space and one line feed) starting at 0-based location 10: the drained
positions carry exactly the coordinates 11, 12, 13, 14. -/
theorem c10_witness :
    (posAll argsCT (PositionIterState.new (("chr1").data) 10 (("AC G\nT").data)).dna
        (PositionIterState.new (("chr1").data) 10 (("AC G\nT").data)).location
        (PositionIterState.new (("chr1").data) 10 (("AC G\nT").data)).seq
        (PositionIterState.new (("chr1").data) 10 (("AC G\nT").data)).last_base
        (PositionIterState.new (("chr1").data) 10 (("AC G\nT").data)).last_pos).map
      (List.map (fun p => p.location))
      = some (consecFrom (10 + 1) (nonSkippedCount (("AC G\nT").data))) :=
  c10_position_iter_consecutive argsCT (("chr1").data) (("AC G\nT").data) 10 (by decide)

/-! ### C4: the per-fragment dedup contract -/

/-- The fragment ids stored at a position, in list order. -/
def idsOf (p : Position) : List Nat :=
  p.unique_ids.map (fun u => u.read_name_id)

/-- The unique_ids list is strictly sorted by fragment id. -/
def SortedIds (ids : List UniqueID) : Prop :=
  List.Pairwise (fun x y => x < y) (ids.map (fun u => u.read_name_id))

theorem sorted_lt_of_lt {ids : List UniqueID} (hs : SortedIds ids)
    {i j : Nat} (hi : i < ids.length) (hj : j < ids.length) (hij : i < j) :
    (ids[i]).read_name_id < (ids[j]).read_name_id := by
  have := (List.pairwise_iff_getElem.mp hs) i j (by simpa using hi) (by simpa using hj) hij
  simpa using this

/-- Completeness of the binary search: on a strictly sorted list that
holds the id inside [start, e], the search returns an index carrying the
id (in particular it neither panics nor exhausts its allowance). -/
theorem searchGo_finds (ids : List UniqueID) (id : Nat) (hs : SortedIds ids) :
    ∀ fuel start e,
      (∃ j, ∃ _hj : j < ids.length, start ≤ j ∧ j ≤ e ∧ (ids[j]).read_name_id = id) →
      e ≤ ids.length → e + 1 - start < fuel →
      ∃ k, ∃ _hk : k < ids.length,
        searchGo ids id fuel start e = some k ∧ (ids[k]).read_name_id = id := by
  intro fuel
  induction fuel with
  | zero =>
    intro start e _hex _he hf
    exact absurd hf (by omega)
  | succ fuel ih =>
    intro start e hex he hf
    obtain ⟨j, hj, hsj, hje, hid⟩ := hex
    unfold searchGo
    have hne : ¬ ids.isEmpty = true := by
      simp only [List.isEmpty_iff]
      exact List.ne_nil_of_length_pos (by omega)
    rw [if_neg hne, if_pos (by omega : start ≤ e)]
    have hmid : (start + e) / 2 < ids.length := by omega
    rw [List.getElem?_eq_getElem hmid]
    simp only []
    by_cases heq : (ids[(start + e) / 2]).read_name_id = id
    · rw [if_pos heq]
      exact ⟨_, hmid, rfl, heq⟩
    · rw [if_neg heq]
      by_cases hgt : (ids[(start + e) / 2]).read_name_id > id
      · rw [if_pos hgt]
        have hjm : j < (start + e) / 2 := by
          rcases Nat.lt_trichotomy j ((start + e) / 2) with h1 | h1 | h1
          · exact h1
          · exact absurd (h1 ▸ hid) heq
          · have := sorted_lt_of_lt hs hmid hj h1
            omega
        rw [if_neg (by omega : ¬ (start + e) / 2 = 0)]
        exact ih start ((start + e) / 2 - 1) ⟨j, hj, hsj, by omega, hid⟩ (by omega) (by omega)
      · rw [if_neg hgt]
        have hjm : (start + e) / 2 < j := by
          rcases Nat.lt_trichotomy j ((start + e) / 2) with h1 | h1 | h1
          · have := sorted_lt_of_lt hs hj hmid h1
            omega
          · exact absurd (h1 ▸ hid) heq
          · exact h1
        exact ih ((start + e) / 2 + 1) e ⟨j, hj, by omega, hje, hid⟩ he (by omega)

theorem mem_rni_iff (ids : List UniqueID) (x : Nat) :
    x ∈ ids.map (fun u => u.read_name_id) ↔
      ∃ j, ∃ _ : j < ids.length, (ids[j]).read_name_id = x := by
  rw [List.mem_iff_getElem]
  constructor
  · rintro ⟨i, hi, hx⟩
    refine ⟨i, by simpa using hi, ?_⟩
    simpa using hx
  · rintro ⟨j, hj, hx⟩
    exact ⟨j, by simpa using hj, by simpa using hx⟩

theorem list_set_self {α : Type} (l : List α) :
    ∀ n x, l[n]? = some x → l.set n x = l := by
  induction l with
  | nil => intro n x h; simp at h
  | cons c rest ih =>
    intro n x h
    cases n with
    | zero =>
      simp only [List.getElem?_cons_zero, Option.some.injEq] at h
      subst h
      rfl
    | succ n =>
      simp only [List.getElem?_cons_succ] at h
      show c :: rest.set n x = c :: rest
      rw [ih n x h]

/-- Inserting a value between the elements below and above it keeps a
strictly increasing list strictly increasing. -/
theorem pairwise_insert_nat (l : List Nat) (k x : Nat)
    (hs : List.Pairwise (fun a b => a < b) l) (_hk : k ≤ l.length)
    (h1 : ∀ j, ∀ _ : j < l.length, j < k → l[j] < x)
    (h2 : ∀ j, ∀ _ : j < l.length, k ≤ j → x < l[j]) :
    List.Pairwise (fun a b => a < b) (l.take k ++ x :: l.drop k) := by
  have hmem_take : ∀ y ∈ l.take k, y < x := by
    intro y hy
    obtain ⟨i, hi, hyi⟩ := List.mem_iff_getElem.mp hy
    have hik : i < k := by simp [List.length_take] at hi; omega
    have hil : i < l.length := by simp [List.length_take] at hi; omega
    have hgi : (l.take k)[i] = l[i] := by simp [List.getElem_take]
    rw [hgi] at hyi
    exact hyi ▸ h1 i hil hik
  have hmem_drop : ∀ y ∈ l.drop k, x < y := by
    intro y hy
    obtain ⟨i, hi, hyi⟩ := List.mem_iff_getElem.mp hy
    have hil : k + i < l.length := by simp [List.length_drop] at hi; omega
    have hgi : (l.drop k)[i] = l[k + i] := by simp [List.getElem_drop]
    rw [hgi] at hyi
    exact hyi ▸ h2 (k + i) hil (by omega)
  rw [List.pairwise_append]
  refine ⟨hs.sublist (List.take_sublist k l), ?_, ?_⟩
  · rw [List.pairwise_cons]
    exact ⟨hmem_drop, hs.sublist (List.drop_sublist k l)⟩
  · intro y hy z hz
    rcases List.mem_cons.mp hz with rfl | hz2
    · exact hmem_take y hy
    · exact lt_trans (hmem_take y hy) (hmem_drop z hz2)

/-- In a strictly sorted unique_ids list every entry's fragment id is at
most the last entry's. -/
theorem sorted_le_getLast (ids : List UniqueID) (hs : SortedIds ids) (lastu : UniqueID)
    (hl : ids.getLast? = some lastu) {j : Nat} (hj : j < ids.length) :
    (ids[j]).read_name_id ≤ lastu.read_name_id := by
  rw [List.getLast?_eq_getElem?] at hl
  rw [List.getElem?_eq_getElem (by omega)] at hl
  have hlast : ids[ids.length - 1] = lastu := by injection hl
  rcases Nat.lt_or_ge j (ids.length - 1) with h | h
  · have hlt := sorted_lt_of_lt hs hj (by omega) h
    rw [hlast] at hlt
    omega
  · have hje : j = ids.length - 1 := by omega
    subst hje
    rw [hlast]

/-- Insert-point property of the binary search: when the id is not in the
strictly sorted list, any index the search returns splits the list with
every entry below it smaller and every entry from it on larger. -/
theorem searchGo_insert_point (ids : List UniqueID) (id : Nat) (hs : SortedIds ids)
    (hnot : ∀ j, ∀ _ : j < ids.length, (ids[j]).read_name_id ≠ id) :
    ∀ fuel start e k,
      (∀ j, ∀ _ : j < ids.length, j < start → (ids[j]).read_name_id < id) →
      (∀ j, ∀ _ : j < ids.length, e < j → id < (ids[j]).read_name_id) →
      searchGo ids id fuel start e = some k →
      (∀ j, ∀ _ : j < ids.length, j < k → (ids[j]).read_name_id < id) ∧
      (∀ j, ∀ _ : j < ids.length, k ≤ j → id < (ids[j]).read_name_id) := by
  intro fuel
  induction fuel with
  | zero =>
    intro start e k _h1 _h2 hres
    exact absurd hres (by simp [searchGo])
  | succ fuel ih =>
    intro start e k h1 h2 hres
    unfold searchGo at hres
    by_cases hemp : ids.isEmpty = true
    · rw [if_pos hemp] at hres
      have hlen : ids.length = 0 := by
        rw [List.isEmpty_iff] at hemp
        simp [hemp]
      constructor <;> intro j hj <;> omega
    · rw [if_neg hemp] at hres
      by_cases hse : start ≤ e
      · rw [if_pos hse] at hres
        cases hm : ids[(start + e) / 2]? with
        | none => rw [hm] at hres; exact absurd hres (by simp)
        | some u =>
          rw [hm] at hres
          simp only [] at hres
          obtain ⟨hmlt, hmu⟩ := List.getElem?_eq_some.mp hm
          have hmr : (ids[(start + e) / 2]).read_name_id = u.read_name_id := by rw [hmu]
          by_cases heq : u.read_name_id = id
          · exact absurd (hmr.trans heq) (hnot _ hmlt)
          · rw [if_neg heq] at hres
            by_cases hgt : u.read_name_id > id
            · rw [if_pos hgt] at hres
              by_cases hm0 : (start + e) / 2 = 0
              · rw [if_pos hm0] at hres; exact absurd hres (by simp)
              · rw [if_neg hm0] at hres
                refine ih start ((start + e) / 2 - 1) k h1 ?_ hres
                intro j hj hjgt
                rcases Nat.lt_or_ge j ((start + e) / 2) with h | h
                · exact absurd h (by omega)
                · rcases Nat.eq_or_lt_of_le h with h | h
                  · have : (ids[j]).read_name_id = u.read_name_id := by
                      subst h; rw [hmu]
                    omega
                  · have := sorted_lt_of_lt hs hmlt hj h
                    omega
            · rw [if_neg hgt] at hres
              have hlt : u.read_name_id < id := by omega
              refine ih ((start + e) / 2 + 1) e k ?_ h2 hres
              intro j hj hjlt
              rcases Nat.lt_or_ge j ((start + e) / 2) with h | h
              · have := sorted_lt_of_lt hs hj hmlt h
                omega
              · have hje : j = (start + e) / 2 := by omega
                have : (ids[j]).read_name_id = u.read_name_id := by
                  subst hje; rw [hmu]
                omega
      · rw [if_neg hse] at hres
        have hk : start = k := by injection hres
        subst hk
        exact ⟨fun j hj hjk => h1 j hj hjk, fun j hj hkj => h2 j hj (by omega)⟩

theorem applyQual_unique_ids (p1 : Position) (accepted : Bool) (b : PosQuality) :
    (applyQual p1 accepted b).unique_ids = p1.unique_ids := by
  by_cases h1 : accepted = true <;> by_cases h2 : b.converted = true <;>
    simp [applyQual, h1, h2]

/-- Pushing a strictly larger fragment id onto the end of a strictly
sorted unique_ids list: the result stays sorted, old ids stay present, and
the new id was absent before and is present after. -/
theorem append_last_invariant (ids : List UniqueID) (newU : UniqueID)
    (hs : SortedIds ids)
    (hmax : ∀ j, ∀ _ : j < ids.length, (ids[j]).read_name_id < newU.read_name_id) :
    SortedIds (ids ++ [newU]) ∧
    (∀ y, y ∈ ids.map (fun u => u.read_name_id) →
      y ∈ (ids ++ [newU]).map (fun u => u.read_name_id)) ∧
    newU.read_name_id ∉ ids.map (fun u => u.read_name_id) ∧
    newU.read_name_id ∈ (ids ++ [newU]).map (fun u => u.read_name_id) := by
  refine ⟨?_, ?_, ?_, ?_⟩
  · unfold SortedIds
    rw [List.map_append, List.pairwise_append]
    refine ⟨hs, by simp, ?_⟩
    intro y hy z hz
    obtain ⟨j, hj, hjy⟩ := (mem_rni_iff ids y).mp hy
    have hzn : z = newU.read_name_id := by simpa using hz
    subst hzn
    exact hjy ▸ hmax j hj
  · intro y hy
    rw [List.map_append]
    exact List.mem_append.mpr (Or.inl hy)
  · intro hmem
    obtain ⟨j, hj, hjy⟩ := (mem_rni_iff ids _).mp hmem
    exact absurd (hjy ▸ hmax j hj) (by omega)
  · rw [List.map_append]
    exact List.mem_append.mpr (Or.inr (by simp))

/-- Branch analysis of Position::append_read_name_id: every non-panicking
call keeps unique_ids strictly sorted by fragment id, never drops a stored
fragment id, and accepts the vote (returns true) exactly on the paths that
insert a previously absent fragment id. -/
theorem append_rni_invariant (p : Position) (b : PosQuality) (a : Alignment)
    (p1 : Position) (acc : Bool)
    (hs : SortedIds p.unique_ids)
    (h : Position.append_read_name_id p b a = some (p1, acc)) :
    SortedIds p1.unique_ids ∧
    (∀ y, y ∈ idsOf p → y ∈ idsOf p1) ∧
    (acc = true → a.read_name_id ∉ idsOf p ∧ a.read_name_id ∈ idsOf p1) := by
  unfold Position.append_read_name_id at h
  simp only [] at h
  cases hlast : p.unique_ids.getLast? with
  | none =>
    rw [hlast] at h
    simp only [Option.some.injEq, Prod.mk.injEq] at h
    obtain ⟨rfl, rfl⟩ := h
    have hnil : p.unique_ids = [] := List.getLast?_eq_none_iff.mp hlast
    have hmax : ∀ j, ∀ _ : j < p.unique_ids.length,
        (p.unique_ids[j]).read_name_id < (UniqueID.new a.read_name_id b.converted b.qual).read_name_id := by
      intro j hj
      rw [hnil] at hj
      exact absurd hj (by simp)
    obtain ⟨hs2, hmono, hout, hin⟩ :=
      append_last_invariant p.unique_ids (UniqueID.new a.read_name_id b.converted b.qual) hs hmax
    exact ⟨hs2, hmono, fun _ => ⟨hout, hin⟩⟩
  | some lastu =>
    rw [hlast] at h
    simp only [] at h
    by_cases hgt : a.read_name_id > lastu.read_name_id
    · rw [if_pos hgt] at h
      simp only [Option.some.injEq, Prod.mk.injEq] at h
      obtain ⟨rfl, rfl⟩ := h
      have hmax : ∀ j, ∀ _ : j < p.unique_ids.length,
          (p.unique_ids[j]).read_name_id < (UniqueID.new a.read_name_id b.converted b.qual).read_name_id := by
        intro j hj
        have := sorted_le_getLast p.unique_ids hs lastu hlast hj
        simp only [UniqueID.new]
        omega
      obtain ⟨hs2, hmono, hout, hin⟩ :=
        append_last_invariant p.unique_ids (UniqueID.new a.read_name_id b.converted b.qual) hs hmax
      exact ⟨hs2, hmono, fun _ => ⟨hout, hin⟩⟩
    · rw [if_neg hgt] at h
      cases hsearch : Position.search_read_name_id p.unique_ids a.read_name_id 0
          p.unique_ids.length with
      | none => rw [hsearch] at h; exact absurd h (by simp)
      | some index =>
        rw [hsearch] at h
        simp only [] at h
        cases hu : p.unique_ids[index]? with
        | none => rw [hu] at h; exact absurd h (by simp)
        | some u =>
          rw [hu] at h
          simp only [] at h
          obtain ⟨hulen, hueq⟩ := List.getElem?_eq_some.mp hu
          by_cases hid : u.read_name_id = a.read_name_id
          · rw [if_pos hid] at h
            by_cases hrem : u.removed = true
            · rw [if_pos hrem] at h
              simp only [Option.some.injEq, Prod.mk.injEq] at h
              obtain ⟨rfl, rfl⟩ := h
              exact ⟨hs, fun y hy => hy, fun hq => absurd hq (by simp)⟩
            · rw [if_neg hrem] at h
              by_cases hconv : u.converted ≠ b.converted
              · rw [if_pos hconv] at h
                have hmapset : (p.unique_ids.set index { u with removed := true }).map
                    (fun v => v.read_name_id) =
                    p.unique_ids.map (fun v => v.read_name_id) := by
                  have hm2 : (p.unique_ids.map (fun v => v.read_name_id))[index]? =
                      some u.read_name_id := by
                    simp [List.getElem?_map, hu]
                  rw [List.map_set]
                  exact list_set_self _ index _ hm2
                by_cases huc : u.converted = true
                · rw [if_pos huc] at h
                  simp only [Option.some.injEq, Prod.mk.injEq] at h
                  obtain ⟨rfl, rfl⟩ := h
                  refine ⟨?_, ?_, fun hq => absurd hq (by simp)⟩
                  · show SortedIds (p.unique_ids.set index { u with removed := true })
                    unfold SortedIds
                    rw [hmapset]
                    exact hs
                  · intro y hy
                    show y ∈ (p.unique_ids.set index { u with removed := true }).map
                      (fun v => v.read_name_id)
                    rw [hmapset]
                    exact hy
                · rw [if_neg huc] at h
                  cases hrm : removeFirstEqUpTo b.qual
                      p.converted_qualities.length p.unconverted_qualities with
                  | none => rw [hrm] at h; exact absurd h (by simp)
                  | some l =>
                    rw [hrm] at h
                    simp only [Option.some.injEq, Prod.mk.injEq] at h
                    obtain ⟨rfl, rfl⟩ := h
                    refine ⟨?_, ?_, fun hq => absurd hq (by simp)⟩
                    · show SortedIds (p.unique_ids.set index { u with removed := true })
                      unfold SortedIds
                      rw [hmapset]
                      exact hs
                    · intro y hy
                      show y ∈ (p.unique_ids.set index { u with removed := true }).map
                        (fun v => v.read_name_id)
                      rw [hmapset]
                      exact hy
              · rw [if_neg hconv] at h
                simp only [Option.some.injEq, Prod.mk.injEq] at h
                obtain ⟨rfl, rfl⟩ := h
                exact ⟨hs, fun y hy => hy, fun hq => absurd hq (by simp)⟩
          · rw [if_neg hid] at h
            have hsearch2 : searchGo p.unique_ids a.read_name_id
                (p.unique_ids.length + 2) 0 p.unique_ids.length = some index := hsearch
            have hnotmem : a.read_name_id ∉ idsOf p := by
              intro hmem
              obtain ⟨j, hj, hjid⟩ := (mem_rni_iff p.unique_ids a.read_name_id).mp hmem
              obtain ⟨k2, hk2, hfind, hk2id⟩ :=
                searchGo_finds p.unique_ids a.read_name_id hs
                  (p.unique_ids.length + 2) 0 p.unique_ids.length
                  ⟨j, hj, by omega, by omega, hjid⟩ (le_refl _) (by omega)
              rw [hfind] at hsearch2
              have hk2i : k2 = index := by injection hsearch2
              subst hk2i
              have : (p.unique_ids[k2]).read_name_id = u.read_name_id := by rw [hueq]
              omega
            have hnotIdx : ∀ j, ∀ _ : j < p.unique_ids.length,
                (p.unique_ids[j]).read_name_id ≠ a.read_name_id := by
              intro j hj hcontra
              exact hnotmem ((mem_rni_iff p.unique_ids a.read_name_id).mpr ⟨j, hj, hcontra⟩)
            obtain ⟨hlo, hhi⟩ := searchGo_insert_point p.unique_ids a.read_name_id hs hnotIdx
              (p.unique_ids.length + 2) 0 p.unique_ids.length index
              (by intro j hj hj0; omega)
              (by intro j hj hje; omega)
              hsearch2
            cases hins : listInsertAt p.unique_ids index
                (UniqueID.new a.read_name_id b.converted b.qual) with
            | none => rw [hins] at h; exact absurd h (by simp)
            | some ids2 =>
              rw [hins] at h
              simp only [Option.some.injEq, Prod.mk.injEq] at h
              obtain ⟨rfl, rfl⟩ := h
              unfold listInsertAt at hins
              by_cases hle : index ≤ p.unique_ids.length
              · rw [if_pos hle] at hins
                have hids2 : p.unique_ids.take index ++
                    UniqueID.new a.read_name_id b.converted b.qual ::
                    p.unique_ids.drop index = ids2 := by injection hins
                have hmap : ids2.map (fun v => v.read_name_id) =
                    (p.unique_ids.map (fun v => v.read_name_id)).take index ++
                    a.read_name_id ::
                    (p.unique_ids.map (fun v => v.read_name_id)).drop index := by
                  rw [← hids2]
                  simp [List.map_take, List.map_drop, UniqueID.new]
                refine ⟨?_, ?_, fun _ => ⟨hnotmem, ?_⟩⟩
                · show SortedIds ids2
                  unfold SortedIds
                  rw [hmap]
                  refine pairwise_insert_nat _ index a.read_name_id hs
                    (by simpa using hle) ?_ ?_
                  · intro j hj hjk
                    have hjl : j < p.unique_ids.length := by simpa using hj
                    have := hlo j hjl hjk
                    simpa using this
                  · intro j hj hkj
                    have hjl : j < p.unique_ids.length := by simpa using hj
                    have := hhi j hjl hkj
                    simpa using this
                · intro y hy
                  show y ∈ ids2.map (fun v => v.read_name_id)
                  obtain ⟨v, hv, hvy⟩ := List.mem_map.mp hy
                  refine List.mem_map.mpr ⟨v, ?_, hvy⟩
                  rw [← hids2]
                  rw [← List.take_append_drop index p.unique_ids] at hv
                  rcases List.mem_append.mp hv with h2 | h2
                  · exact List.mem_append.mpr (Or.inl h2)
                  · exact List.mem_append.mpr (Or.inr (List.mem_cons_of_mem _ h2))
                · show a.read_name_id ∈ ids2.map (fun v => v.read_name_id)
                  rw [hmap]
                  exact List.mem_append.mpr (Or.inr (by simp))
              · rw [if_neg hle] at hins
                exact absurd hins (by simp)

/-- Run-level vote counting: from any strictly sorted state, a
non-panicking run of append_base steps accepts at most one vote for any
given fragment id, and accepts none at all when the id is already stored. -/
theorem runCount_le_one_aux (id : Nat) :
    ∀ ops (p : Position), SortedIds p.unique_ids →
      ∀ pf n, runCount p id ops = some (pf, n) →
        n ≤ 1 ∧ (id ∈ idsOf p → n = 0) := by
  intro ops
  induction ops with
  | nil =>
    intro p _hs pf n h
    simp only [runCount, Option.some.injEq, Prod.mk.injEq] at h
    obtain ⟨-, rfl⟩ := h
    exact ⟨by omega, fun _ => rfl⟩
  | cons op rest ih =>
    obtain ⟨b, a⟩ := op
    intro p hs pf n hres
    simp only [runCount] at hres
    cases hstep : Position.append_read_name_id p b a with
    | none => rw [hstep] at hres; exact absurd hres (by simp)
    | some pr =>
      obtain ⟨p1, accepted⟩ := pr
      rw [hstep] at hres
      simp only [] at hres
      obtain ⟨hsort1, hmono, hacc⟩ := append_rni_invariant p b a p1 accepted hs hstep
      have hq : (applyQual p1 accepted b).unique_ids = p1.unique_ids :=
        applyQual_unique_ids p1 accepted b
      have hs2 : SortedIds (applyQual p1 accepted b).unique_ids := by
        rw [hq]; exact hsort1
      have hidq : idsOf (applyQual p1 accepted b) = idsOf p1 := by
        unfold idsOf; rw [hq]
      cases hrest : runCount (applyQual p1 accepted b) id rest with
      | none => rw [hrest] at hres; exact absurd hres (by simp)
      | some pr2 =>
        obtain ⟨pf2, n2⟩ := pr2
        rw [hrest] at hres
        simp only [Option.some.injEq, Prod.mk.injEq] at hres
        obtain ⟨-, hn⟩ := hres
        obtain ⟨hle2, hzero2⟩ := ih (applyQual p1 accepted b) hs2 pf2 n2 hrest
        by_cases hcase : accepted = true ∧ a.read_name_id = id
        · rw [if_pos hcase] at hn
          obtain ⟨ha1, ha2⟩ := hcase
          obtain ⟨hout, hin⟩ := hacc ha1
          have hinq : id ∈ idsOf (applyQual p1 accepted b) := by
            rw [hidq]; exact ha2 ▸ hin
          have hn2 : n2 = 0 := hzero2 hinq
          refine ⟨by omega, ?_⟩
          intro hinp
          exact absurd (ha2.symm ▸ hinp) hout
        · rw [if_neg hcase] at hn
          refine ⟨by omega, ?_⟩
          intro hinp
          have h1 : id ∈ idsOf p1 := hmono id hinp
          have h2 : id ∈ idsOf (applyQual p1 accepted b) := by rw [hidq]; exact h1
          have := hzero2 h2
          omega

def c4u : UniqueID :=
  { read_name_id := 5, converted := true, quality := 'F', removed := false }

def c4p : Position :=
  { Position.new with unique_ids := [c4u], converted_qualities := ['F'] }

def c4b : PosQuality :=
  { read_pos := 0, ref_pos := 0, qual := 'G', converted := true, remove := false }

def c4a : Alignment :=
  { Alignment.new with read_name_id := 5 }

def c4ops : List (PosQuality × Alignment) := [(c4b, c4a), (c4b, c4a)]

def c4newu : UniqueID :=
  { read_name_id := 5, converted := true, quality := 'G', removed := false }

def c4pf : Position :=
  { Position.new with unique_ids := [c4newu], converted_qualities := ['G'] }

/-- C4: each position holds at most one standing vote per fragment id.
First conjunct: a second observation whose fragment id already has a
standing (non-removed) entry with the same converted flag is rejected by
Position::append_base with the position unchanged (no quality byte
appended).  Second conjunct: over any non-panicking run of append_base
steps from a fresh position, at most one vote for any given fragment id is
ever accepted, so no fragment contributes two standing quality bytes. -/
theorem c4_at_most_one_standing_vote :
    (∀ (p : Position) (b : PosQuality) (a : Alignment) (i : Nat) (u : UniqueID),
        SortedIds p.unique_ids →
        p.unique_ids[i]? = some u →
        u.read_name_id = a.read_name_id →
        u.removed = false →
        u.converted = b.converted →
        Position.append_base p b a = some p) ∧
    (∀ (ops : List (PosQuality × Alignment)) (id : Nat) (pf : Position) (n : Nat),
        runCount Position.new id ops = some (pf, n) → n ≤ 1) := by
  constructor
  · intro p b a i u hs hui hid hrem hconv
    obtain ⟨hilen, hieq⟩ := List.getElem?_eq_some.mp hui
    have hir : (p.unique_ids[i]).read_name_id = a.read_name_id := by
      rw [hieq]; exact hid
    cases hlast : p.unique_ids.getLast? with
    | none =>
      have hnil := List.getLast?_eq_none_iff.mp hlast
      rw [hnil] at hilen
      exact absurd hilen (by simp)
    | some lastu =>
      have hle : a.read_name_id ≤ lastu.read_name_id := by
        have := sorted_le_getLast p.unique_ids hs lastu hlast hilen
        omega
      obtain ⟨k, hk, hfind, hkid⟩ :=
        searchGo_finds p.unique_ids a.read_name_id hs
          (p.unique_ids.length + 2) 0 p.unique_ids.length
          ⟨i, hilen, by omega, by omega, hir⟩ (le_refl _) (by omega)
      have hki : k = i := by
        rcases Nat.lt_trichotomy k i with hlt | heq | hgt
        · have := sorted_lt_of_lt hs hk hilen hlt
          omega
        · exact heq
        · have := sorted_lt_of_lt hs hilen hk hgt
          omega
      subst hki
      have happend : Position.append_read_name_id p b a = some (p, false) := by
        unfold Position.append_read_name_id
        simp only []
        rw [hlast]
        simp only []
        rw [if_neg (by omega : ¬ a.read_name_id > lastu.read_name_id)]
        rw [show Position.search_read_name_id p.unique_ids a.read_name_id 0
            p.unique_ids.length = some k from hfind]
        simp only []
        rw [hui]
        simp only []
        rw [if_pos hid]
        rw [if_neg (by simp [hrem])]
        rw [if_neg (fun hne => hne hconv)]
      unfold Position.append_base
      rw [happend]
  · intro ops id pf n h
    exact (runCount_le_one_aux id ops Position.new (List.Pairwise.nil) pf n h).1

/-- Witness for C4 at a concrete state: the standing entry for fragment 5
with the converted flag already set rejects the duplicate observation
unchanged, and a concrete two-step run (first vote accepted, duplicate
rejected) accepts exactly one vote. -/
theorem c4_witness :
    Position.append_base c4p c4b c4a = some c4p ∧ (1 : Nat) ≤ 1 := by
  constructor
  · exact c4_at_most_one_standing_vote.1 c4p c4b c4a 0 c4u
      (by simp [SortedIds, c4p, c4u]) (by decide) rfl rfl rfl
  · exact c4_at_most_one_standing_vote.2 c4ops 5 c4pf 1 (by decide)

end Hisat3n
